import Mathlib

/-!
# Chess move legality and attack maps

A shallow embedding of `my-website/backend/chess.go` and a verification of its
move-legality predicate (`isValidMove`), its board update (`movePiece`) and its
attack-map builder (`buildAttackMap`).

Modelling conventions.

* Go `int` coordinates are `Int`.  Every arithmetic operation of the program is
  performed on values that are already known to lie in `[0,8)` (or one or two
  steps away from it), so 64-bit wrap-around never occurs and is not modelled.
* Indexing a `[8][8]` array outside `[0,8)` is a run-time panic in Go.  Every
  function that indexes therefore returns a `Run`, whose `fault` case records
  the panic (`indexOutOfRange`), the explicit `panic("king not found")`
  (`kingNotFound`), or the exhaustion of the iteration budget given to a loop
  (`outOfFuel`).
* `for` loops whose trip count is not syntactically bounded are modelled by
  structural recursion on a fuel argument; the callers pass `loopFuel = 8`, and
  the theorems show that this budget is never exhausted.
* The pointer argument `attacked *AttackMap` is modelled by state passing.
* `Piece` and `Color` are closed enumerations: the program only ever stores the
  named constants in a `Square`.
-/

namespace Chess

/-! ## Data model -/

/-- The Go type `Piece` (an `iota` enumeration). -/
inductive Piece
  | Empty | Pawn | Knight | Bishop | Rook | Queen | King
  deriving DecidableEq, Repr

/-- The Go type `Color`. -/
inductive Color
  | White | Black
  deriving DecidableEq, Repr

/-- The Go struct `Square`. -/
structure Square where
  piece : Piece
  color : Color
  deriving DecidableEq, Repr

/-- The Go zero value `Square{}`: an empty square (colour field `White`). -/
def Square.zero : Square := ⟨Piece.Empty, Color.White⟩

/-- Abnormal terminations of a run. -/
inductive Fault
  | indexOutOfRange | kingNotFound | outOfFuel
  deriving DecidableEq, Repr

/-- The outcome of running a Go function: a value, or a fault. -/
inductive Run (α : Type)
  | ok (v : α)
  | fault (f : Fault)
  deriving DecidableEq, Repr

/-- Sequencing of runs: a fault aborts everything after it. -/
def Run.bind {α β : Type} (r : Run α) (k : α → Run β) : Run β :=
  match r with
  | Run.ok v => k v
  | Run.fault f => Run.fault f

instance : Monad Run where
  pure := Run.ok
  bind := Run.bind

/-- An 8×8 Go array `[8][8]α`. -/
def Grid (α : Type) : Type := Fin 8 → Fin 8 → α

/-- The Go type `Board`. -/
abbrev Board : Type := Grid Square

/-- The Go type `AttackMap`. -/
abbrev AttackMap : Type := Grid Bool

/-- Assignment `g[i][j] = v` at indices known to be in range. -/
def Grid.put {α : Type} (g : Grid α) (i j : Fin 8) (v : α) : Grid α :=
  fun i' j' => if i' = i ∧ j' = j then v else g i' j'

/-- The read `g[x][y]` with run-time indices: panics outside `[0,8)`. -/
def Grid.read {α : Type} (g : Grid α) (x y : Int) : Run α :=
  if h : 0 ≤ x ∧ x < 8 ∧ 0 ≤ y ∧ y < 8 then
    Run.ok (g ⟨x.toNat, by omega⟩ ⟨y.toNat, by omega⟩)
  else Run.fault Fault.indexOutOfRange

/-- The assignment `g[x][y] = v` with run-time indices: panics outside `[0,8)`. -/
def Grid.write {α : Type} (g : Grid α) (x y : Int) (v : α) : Run (Grid α) :=
  if h : 0 ≤ x ∧ x < 8 ∧ 0 ≤ y ∧ y < 8 then
    Run.ok (g.put ⟨x.toNat, by omega⟩ ⟨y.toNat, by omega⟩ v)
  else Run.fault Fault.indexOutOfRange

/-- The zero value of `Board`: every square is `Square{}`. -/
def emptyBoard : Board := fun _ _ => Square.zero

/-- The zero value of `AttackMap`: nothing is marked. -/
def emptyAttackMap : AttackMap := fun _ _ => false

/-- The indices `0, …, 7` visited by `for i := 0; i < 8; i++`. -/
def indices : List (Fin 8) := [0, 1, 2, 3, 4, 5, 6, 7]

/-- The Go function `NewBoard`. -/
def NewBoard : Board :=
  let b := indices.foldl
    (fun b i => (b.put 1 i ⟨Piece.Pawn, Color.White⟩).put 6 i ⟨Piece.Pawn, Color.Black⟩)
    emptyBoard
  let b := b.put 0 0 ⟨Piece.Rook, Color.White⟩
  let b := b.put 0 7 ⟨Piece.Rook, Color.White⟩
  let b := b.put 7 0 ⟨Piece.Rook, Color.Black⟩
  let b := b.put 7 7 ⟨Piece.Rook, Color.Black⟩
  let b := b.put 0 1 ⟨Piece.Knight, Color.White⟩
  let b := b.put 0 6 ⟨Piece.Knight, Color.White⟩
  let b := b.put 7 1 ⟨Piece.Knight, Color.Black⟩
  let b := b.put 7 6 ⟨Piece.Knight, Color.Black⟩
  let b := b.put 0 2 ⟨Piece.Bishop, Color.White⟩
  let b := b.put 0 5 ⟨Piece.Bishop, Color.White⟩
  let b := b.put 7 2 ⟨Piece.Bishop, Color.Black⟩
  let b := b.put 7 5 ⟨Piece.Bishop, Color.Black⟩
  let b := b.put 0 3 ⟨Piece.Queen, Color.White⟩
  let b := b.put 7 3 ⟨Piece.Queen, Color.Black⟩
  let b := b.put 0 4 ⟨Piece.King, Color.White⟩
  let b := b.put 7 4 ⟨Piece.King, Color.Black⟩
  b

/-! ## Board update and geometry primitives -/

/-- The Go function `movePiece`: the board is passed by value, so the update is
on a copy. -/
def movePiece (b : Board) (xFrom yFrom xTo yTo : Int) : Run Board := do
  let selected ← b.read xFrom yFrom
  let b ← b.write xFrom yFrom Square.zero
  b.write xTo yTo selected

/-- The Go function `sameColor`; `&&` evaluates its right operand only when the
left one is true. -/
def sameColor (b : Board) (fx fy tx ty : Int) : Run Bool := do
  let t ← b.read tx ty
  if t.piece ≠ Piece.Empty then
    let f ← b.read fx fy
    pure (decide (f.color = t.color))
  else
    pure false

/-- The Go function `inBounds`. -/
def inBounds (x y : Int) : Bool :=
  decide (x ≥ 0) && decide (x < 8) && decide (y ≥ 0) && decide (y < 8)

/-- Iteration budget handed to the loops modelled with fuel. -/
def loopFuel : Nat := 8

/-- The statement `d := a - b; if d < 0 { d = -d }`. -/
def absDiff (a b : Int) : Int :=
  if a - b < 0 then -(a - b) else a - b

/-! ## Move legality -/

/-- The loop of `validBishopMove`:
`for x != tx && y != ty { if b[x][y].Piece != Empty { return false }; x += stepX; y += stepY }`
followed by `return true`. -/
def bishopLoop (b : Board) (tx ty stepX stepY : Int) : Nat → Int → Int → Run Bool
  | 0, _, _ => Run.fault Fault.outOfFuel
  | n + 1, x, y =>
    if x ≠ tx ∧ y ≠ ty then do
      let sq ← b.read x y
      if sq.piece ≠ Piece.Empty then pure false
      else bishopLoop b tx ty stepX stepY n (x + stepX) (y + stepY)
    else pure true

/-- The Go function `validBishopMove`. -/
def validBishopMove (b : Board) (fx fy tx ty : Int) : Run Bool :=
  if !inBounds tx ty then pure false
  else
    let dx := absDiff fx tx
    let dy := absDiff fy ty
    if dx ≠ dy then pure false
    else do
      let same ← sameColor b fx fy tx ty
      if same then pure false
      else
        let stepX : Int := if tx < fx then -1 else 1
        let stepY : Int := if ty < fy then -1 else 1
        bishopLoop b tx ty stepX stepY loopFuel (fx + stepX) (fy + stepY)

/-- The loop of `validRookMove`:
`for x != tx || y != ty { if b[x][y].Piece != Empty { return false }; x += dx; y += dy }`
followed by `return true`. -/
def rookLoop (b : Board) (tx ty dx dy : Int) : Nat → Int → Int → Run Bool
  | 0, _, _ => Run.fault Fault.outOfFuel
  | n + 1, x, y =>
    if x ≠ tx ∨ y ≠ ty then do
      let sq ← b.read x y
      if sq.piece ≠ Piece.Empty then pure false
      else rookLoop b tx ty dx dy n (x + dx) (y + dy)
    else pure true

/-- The Go function `validRookMove`. -/
def validRookMove (b : Board) (fx fy tx ty : Int) : Run Bool :=
  if !inBounds tx ty then pure false
  else if fx ≠ tx ∧ fy ≠ ty then pure false
  else do
    let same ← sameColor b fx fy tx ty
    if same then pure false
    else
      let dx : Int := if fx < tx then 1 else if fx > tx then -1 else 0
      let dy : Int := if fy < ty then 1 else if fy > ty then -1 else 0
      rookLoop b tx ty dx dy loopFuel (fx + dx) (fy + dy)

/-- The Go function `validQueenMove`; `||` evaluates `validBishopMove` only when
`validRookMove` returned false. -/
def validQueenMove (b : Board) (fx fy tx ty : Int) : Run Bool := do
  let r ← validRookMove b fx fy tx ty
  if r then pure true else validBishopMove b fx fy tx ty

/-- The Go function `validKnightMove`. -/
def validKnightMove (b : Board) (fx fy tx ty : Int) : Run Bool :=
  if !inBounds tx ty then pure false
  else
    let dx := absDiff fx tx
    let dy := absDiff fy ty
    if ¬ ((dx = 2 ∧ dy = 1) ∨ (dx = 1 ∧ dy = 2)) then pure false
    else do
      let same ← sameColor b fx fy tx ty
      pure (!same)

/-- The Go function `validPawnMove`.  The first `if` block either returns
`true` or falls through; `advance` is whether it returned. -/
def validPawnMove (b : Board) (fx fy tx ty : Int) : Run Bool :=
  if !inBounds tx ty then pure false
  else do
    let pawn ← b.read fx fy
    let dir : Int := if pawn.color = Color.Black then -1 else 1
    let startRow : Int := if pawn.color = Color.Black then 6 else 1
    let advance ←
      (if fy = ty then do
        let dst ← b.read tx ty
        if dst.piece = Piece.Empty then
          if tx = fx + dir then pure true
          else if fx = startRow ∧ tx = fx + 2 * dir then do
            let mid ← b.read (fx + dir) fy
            pure (decide (mid.piece = Piece.Empty))
          else pure false
        else pure false
      else pure false : Run Bool)
    if advance then pure true
    else if tx = fx + dir ∧ (ty = fy + 1 ∨ ty = fy - 1) then do
      let dst ← b.read tx ty
      if dst.piece ≠ Piece.Empty then pure (decide (dst.color ≠ pawn.color))
      else pure false
    else pure false

/-! ## Attack maps -/

/-- The table `rookDirs`. -/
def rookDirs : List (Int × Int) := [(1, 0), (-1, 0), (0, 1), (0, -1)]

/-- The table `bishopDirs`. -/
def bishopDirs : List (Int × Int) := [(1, 1), (1, -1), (-1, 1), (-1, -1)]

/-- The table `queenDirs = append(rookDirs, bishopDirs...)`. -/
def queenDirs : List (Int × Int) := rookDirs ++ bishopDirs

/-- The table `knightOffsets`. -/
def knightOffsets : List (Int × Int) :=
  [(2, 1), (1, 2), (-1, 2), (-2, 1), (-2, -1), (-1, -2), (1, -2), (2, -1)]

/-- The body `if inBounds(x, y) { attacked[x][y] = true }`. -/
def markIfInBounds (attacked : AttackMap) (x y : Int) : Run AttackMap :=
  if inBounds x y then attacked.write x y true else pure attacked

/-- The inner loop of `markSlidingAttacks` for one direction `d`:
`for inBounds(x, y) { attacked[x][y] = true; if b[x][y].Piece != Empty { break }; x += d[0]; y += d[1] }`. -/
def slideRay (b : Board) (d : Int × Int) : Nat → Int → Int → AttackMap → Run AttackMap
  | 0, _, _, _ => Run.fault Fault.outOfFuel
  | n + 1, x, y, attacked =>
    if inBounds x y then do
      let attacked ← attacked.write x y true
      let sq ← b.read x y
      if sq.piece ≠ Piece.Empty then pure attacked
      else slideRay b d n (x + d.1) (y + d.2) attacked
    else pure attacked

/-- The Go function `markSlidingAttacks`. -/
def markSlidingAttacks (b : Board) (fx fy : Int) (attacked : AttackMap)
    (dirs : List (Int × Int)) : Run AttackMap :=
  dirs.foldlM (fun a d => slideRay b d loopFuel (fx + d.1) (fy + d.2) a) attacked

/-- The Go function `markKnightAttacks`. -/
def markKnightAttacks (fx fy : Int) (attacked : AttackMap) : Run AttackMap :=
  knightOffsets.foldlM (fun a o => markIfInBounds a (fx + o.1) (fy + o.2)) attacked

/-- The Go function `markPawnAttacks`. -/
def markPawnAttacks (b : Board) (fx fy : Int) (attacked : AttackMap) : Run AttackMap := do
  let sq ← b.read fx fy
  let dir : Int := if sq.color = Color.Black then -1 else 1
  ([-1, 1] : List Int).foldlM (fun a dy => markIfInBounds a (fx + dir) (fy + dy)) attacked

/-- The Go function `markKingAttacks`: both loop variables range over
`-1, 0, 1`, and the pair `(0, 0)` is skipped by `continue`. -/
def markKingAttacks (fx fy : Int) (attacked : AttackMap) : Run AttackMap :=
  ([-1, 0, 1] : List Int).foldlM
    (fun a dx =>
      ([-1, 0, 1] : List Int).foldlM
        (fun a dy =>
          if dx = 0 ∧ dy = 0 then pure a
          else markIfInBounds a (fx + dx) (fy + dy))
        a)
    attacked

/-- The Go function `markAttacks`. -/
def markAttacks (b : Board) (fx fy : Int) (attacked : AttackMap) : Run AttackMap := do
  let sq ← b.read fx fy
  match sq.piece with
  | Piece.Pawn => markPawnAttacks b fx fy attacked
  | Piece.Knight => markKnightAttacks fx fy attacked
  | Piece.Bishop => markSlidingAttacks b fx fy attacked bishopDirs
  | Piece.Rook => markSlidingAttacks b fx fy attacked rookDirs
  | Piece.Queen => markSlidingAttacks b fx fy attacked queenDirs
  | Piece.King => markKingAttacks fx fy attacked
  | Piece.Empty => pure attacked

/-- The values `0, …, 7` of a loop variable `for x := 0; x < 8; x++`. -/
def coords : List Int := [0, 1, 2, 3, 4, 5, 6, 7]

/-- The inner loop of `findKing` over the files of rank `x`; `none` when the
loop finishes without returning. -/
def findKingInRank (b : Board) (c : Color) (x : Int) : List Int → Run (Option (Int × Int))
  | [] => pure none
  | y :: ys => do
    let sq ← b.read x y
    if sq.piece = Piece.King ∧ sq.color = c then pure (some (x, y))
    else findKingInRank b c x ys

/-- The outer loop of `findKing`, ending in `panic("king not found")`. -/
def findKingFrom (b : Board) (c : Color) : List Int → Run (Int × Int)
  | [] => Run.fault Fault.kingNotFound
  | x :: xs => do
    let r ← findKingInRank b c x coords
    match r with
    | some p => pure p
    | none => findKingFrom b c xs

/-- The Go function `findKing`. -/
def findKing (b : Board) (c : Color) : Run (Int × Int) :=
  findKingFrom b c coords

/-- The Go function `buildAttackMap`. -/
def buildAttackMap (b : Board) (by_ : Color) : Run AttackMap :=
  coords.foldlM
    (fun a x =>
      coords.foldlM
        (fun a y => do
          let sq ← b.read x y
          if sq.piece ≠ Piece.Empty ∧ sq.color = by_ then markAttacks b x y a
          else pure a)
        a)
    emptyAttackMap

/-- The Go function `isKingInCheck`. -/
def isKingInCheck (b : Board) (color : Color) : Run Bool := do
  let k ← findKing b color
  let enemy := if color = Color.White then Color.Black else Color.White
  let attacked ← buildAttackMap b enemy
  attacked.read k.1 k.2

/-- The Go function `validKingMove`. -/
def validKingMove (b : Board) (fx fy tx ty : Int) : Run Bool :=
  if !inBounds tx ty then pure false
  else
    let dx := absDiff fx tx
    let dy := absDiff fy ty
    if dx > 1 ∨ dy > 1 then pure false
    else do
      let same ← sameColor b fx fy tx ty
      if same then pure false
      else do
        let next ← movePiece b fx fy tx ty
        let sq ← b.read fx fy
        let inCheck ← isKingInCheck next sq.color
        if inCheck then pure false else pure true

/-- The Go function `isValidMove`. -/
def isValidMove (b : Board) (fromX fromY toX toY : Int) : Run Bool := do
  let sq ← b.read fromX fromY
  match sq.piece with
  | Piece.Empty => pure false
  | Piece.Pawn => validPawnMove b fromX fromY toX toY
  | Piece.Knight => validKnightMove b fromX fromY toX toY
  | Piece.Bishop => validBishopMove b fromX fromY toX toY
  | Piece.Rook => validRookMove b fromX fromY toX toY
  | Piece.Queen => validQueenMove b fromX fromY toX toY
  | Piece.King => validKingMove b fromX fromY toX toY

/-! ## Specification vocabulary

The predicates in which the properties of the program are stated. -/

/-- The coordinate `(x, y)` is in bounds: both components lie in `[0,8)`. -/
def InB (x y : Int) : Prop := 0 ≤ x ∧ x < 8 ∧ 0 ≤ y ∧ y < 8

/-- The square `(x, y)` exists and holds no piece. -/
def IsEmptyAt (b : Board) (x y : Int) : Prop :=
  ∃ sq, b.read x y = Run.ok sq ∧ sq.piece = Piece.Empty

/-- The square `(x, y)` exists and holds a piece of side `c`. -/
def OwnedBy (b : Board) (x y : Int) (c : Color) : Prop :=
  ∃ sq, b.read x y = Run.ok sq ∧ sq.piece ≠ Piece.Empty ∧ sq.color = c

/-- Every square strictly between `(fx, fy)` and `(tx, ty)` on the rank, file or
diagonal joining them is empty: these are the squares `j` unit steps away from
the origin towards the destination, for `0 < j < distance`. -/
def PathClear (b : Board) (fx fy tx ty : Int) : Prop :=
  ∀ j : Int, 0 < j → j < max |tx - fx| |ty - fy| →
    IsEmptyAt b (fx + j * Int.sign (tx - fx)) (fy + j * Int.sign (ty - fy))

/-- The other side. -/
def Color.other : Color → Color
  | Color.White => Color.Black
  | Color.Black => Color.White

/-- Forward direction of a side's pawns: `+1` for White, `-1` for Black. -/
def pawnDir : Color → Int
  | Color.White => 1
  | Color.Black => -1

/-- Start rank of a side's pawns: `1` for White, `6` for Black. -/
def pawnStart : Color → Int
  | Color.White => 1
  | Color.Black => 6

instance (x y : Int) : Decidable (InB x y) := by unfold InB; infer_instance

/-- Total reading of a grid at an in-bounds coordinate. -/
def Grid.cell {α : Type} (g : Grid α) (x y : Int) (h : InB x y) : α :=
  g ⟨x.toNat, by unfold InB at h; omega⟩ ⟨y.toNat, by unfold InB at h; omega⟩

/-- Two squares are aligned when they share a rank, a file or a diagonal. -/
def Aligned (fx fy tx ty : Int) : Prop :=
  tx = fx ∨ ty = fy ∨ |tx - fx| = |ty - fy|

/-- The map `a'` is `a` with, in addition, exactly the in-bounds squares
satisfying `P` marked. -/
def Marks (a a' : AttackMap) (P : Int → Int → Prop) : Prop :=
  ∀ tx ty, InB tx ty → (a'.read tx ty = Run.ok true ↔ a.read tx ty = Run.ok true ∨ P tx ty)

/-- The piece `sq`, standing on `(fx, fy)`, attacks the square `(tx, ty)`:
a pawn attacks its two forward diagonals, a knight the eight knight offsets, a
king the eight surrounding squares, and a bishop, rook or queen every other
square of its diagonals, of its rank and file, or of both, that no piece
stands strictly in between. -/
def Attacks (b : Board) (sq : Square) (fx fy tx ty : Int) : Prop :=
  match sq.piece with
  | Piece.Empty => False
  | Piece.Pawn => tx = fx + pawnDir sq.color ∧ (ty = fy - 1 ∨ ty = fy + 1)
  | Piece.Knight => (|tx - fx| = 2 ∧ |ty - fy| = 1) ∨ (|tx - fx| = 1 ∧ |ty - fy| = 2)
  | Piece.King => |tx - fx| ≤ 1 ∧ |ty - fy| ≤ 1 ∧ ¬ (tx = fx ∧ ty = fy)
  | Piece.Bishop =>
    |tx - fx| = |ty - fy| ∧ ¬ (tx = fx ∧ ty = fy) ∧ PathClear b fx fy tx ty
  | Piece.Rook =>
    (tx = fx ∨ ty = fy) ∧ ¬ (tx = fx ∧ ty = fy) ∧ PathClear b fx fy tx ty
  | Piece.Queen =>
    (tx = fx ∨ ty = fy ∨ |tx - fx| = |ty - fy|) ∧ ¬ (tx = fx ∧ ty = fy) ∧
      PathClear b fx fy tx ty

/-- The square `(x, y)` exists and holds the king of side `c`. -/
def IsKingOf (b : Board) (c : Color) (x y : Int) : Prop :=
  ∃ sq, b.read x y = Run.ok sq ∧ sq.piece = Piece.King ∧ sq.color = c

/-- The number of cells of a grid that satisfy `p`. -/
def Grid.count {α : Type} (g : Grid α) (p : α → Bool) : Nat :=
  (indices.map fun i => indices.countP fun j => p (g i j)).sum

/-- The boards reachable from the starting position by moves that `isValidMove`
accepts and `movePiece` applies. -/
inductive Reachable : Board → Prop
  | start : Reachable NewBoard
  | step {b next : Board} (fx fy tx ty : Int) :
      Reachable b → isValidMove b fx fy tx ty = Run.ok true →
      movePiece b fx fy tx ty = Run.ok next → Reachable next

/-- The boards reachable from the starting position by moves that `isValidMove`
accepts and `movePiece` applies, none of which is a move of a piece of the
side opposing `s` onto a square holding a king of side `s`. -/
inductive ReachableSparing (s : Color) : Board → Prop
  | start : ReachableSparing s NewBoard
  | step {b next : Board} (fx fy tx ty : Int) :
      ReachableSparing s b → isValidMove b fx fy tx ty = Run.ok true →
      ¬ (OwnedBy b fx fy s.other ∧ IsKingOf b s tx ty) →
      movePiece b fx fy tx ty = Run.ok next → ReachableSparing s next

/-! ## Sample positions -/

/-- A white rook on `(0,0)` and a black pawn on `(0,5)`. -/
def rookSample : Board :=
  (emptyBoard.put 0 0 ⟨Piece.Rook, Color.White⟩).put 0 5 ⟨Piece.Pawn, Color.Black⟩

/-- A black bishop on `(2,2)` and a white knight on `(5,5)`. -/
def bishopSample : Board :=
  (emptyBoard.put 2 2 ⟨Piece.Bishop, Color.Black⟩).put 5 5 ⟨Piece.Knight, Color.White⟩

/-- A white queen on `(3,3)` and a black pawn on `(3,6)`. -/
def queenSample : Board :=
  (emptyBoard.put 3 3 ⟨Piece.Queen, Color.White⟩).put 3 6 ⟨Piece.Pawn, Color.Black⟩

/-- A white king on `(0,3)` facing a black rook on `(7,3)`. -/
def kingFacingRook : Board :=
  (emptyBoard.put 0 3 ⟨Piece.King, Color.White⟩).put 7 3 ⟨Piece.Rook, Color.Black⟩

/-- White king `(0,4)` shielded by a white rook on `(1,4)` from a black rook on
`(7,4)`; the black king stands on `(7,7)`. -/
def shieldedKing : Board :=
  (((emptyBoard.put 0 4 ⟨Piece.King, Color.White⟩).put 1 4 ⟨Piece.Rook, Color.White⟩).put
    7 4 ⟨Piece.Rook, Color.Black⟩).put 7 7 ⟨Piece.King, Color.Black⟩

/-- A lone white pawn on its start square `(1,4)`. -/
def lonePawn : Board := emptyBoard.put 1 4 ⟨Piece.Pawn, Color.White⟩

/-- A lone white rook on `(0,0)`. -/
def loneRook : Board := emptyBoard.put 0 0 ⟨Piece.Rook, Color.White⟩

/-- A white king on `(0,3)` and a black king on `(2,3)`. -/
def facingKings : Board :=
  (emptyBoard.put 0 3 ⟨Piece.King, Color.White⟩).put 2 3 ⟨Piece.King, Color.Black⟩

/-- The starting position after the white knight has gone from `(0,1)` to
`(2,2)`. -/
def raid1 : Board :=
  (NewBoard.put 0 1 Square.zero).put 2 2 ⟨Piece.Knight, Color.White⟩

/-- The position `raid1` after the knight has gone on to `(4,3)`. -/
def raid2 : Board :=
  (raid1.put 2 2 Square.zero).put 4 3 ⟨Piece.Knight, Color.White⟩

/-- The position `raid2` after the knight has taken the pawn on `(6,2)`. -/
def raid3 : Board :=
  (raid2.put 4 3 Square.zero).put 6 2 ⟨Piece.Knight, Color.White⟩

/-- The position `raid3` after the knight has taken the black king on `(7,4)`. -/
def raid4 : Board :=
  (raid3.put 6 2 Square.zero).put 7 4 ⟨Piece.Knight, Color.White⟩

/-! ## Basic lemmas -/

@[simp] theorem Run.ok_bind {α β : Type} (v : α) (k : α → Run β) :
    (Run.ok v >>= k) = k v := rfl

@[simp] theorem Run.fault_bind {α β : Type} (f : Fault) (k : α → Run β) :
    (Run.fault f >>= k) = Run.fault f := rfl

@[simp] theorem Run.pure_eq {α : Type} (v : α) : (pure v : Run α) = Run.ok v := rfl

theorem inBounds_iff (x y : Int) : inBounds x y = true ↔ InB x y := by
  simp [inBounds, InB, and_assoc]

theorem inBounds_false_iff (x y : Int) : inBounds x y = false ↔ ¬ InB x y := by
  rw [← inBounds_iff]; simp

theorem Grid.read_of_inB {α : Type} (g : Grid α) {x y : Int} (h : InB x y) :
    g.read x y = Run.ok (g.cell x y h) := by
  unfold Grid.read Grid.cell
  rw [dif_pos (show 0 ≤ x ∧ x < 8 ∧ 0 ≤ y ∧ y < 8 from h)]

theorem Grid.read_of_not_inB {α : Type} (g : Grid α) {x y : Int} (h : ¬ InB x y) :
    g.read x y = Run.fault Fault.indexOutOfRange := by
  unfold Grid.read
  rw [dif_neg (show ¬ (0 ≤ x ∧ x < 8 ∧ 0 ≤ y ∧ y < 8) from h)]

theorem Grid.inB_of_read {α : Type} {g : Grid α} {x y : Int} {v : α}
    (h : g.read x y = Run.ok v) : InB x y := by
  by_contra hn
  rw [Grid.read_of_not_inB g hn] at h
  cases h

theorem Grid.write_of_not_inB {α : Type} (g : Grid α) {x y : Int} (v : α) (h : ¬ InB x y) :
    g.write x y v = Run.fault Fault.indexOutOfRange := by
  unfold Grid.write
  rw [dif_neg (show ¬ (0 ≤ x ∧ x < 8 ∧ 0 ≤ y ∧ y < 8) from h)]

theorem Grid.write_ok {α : Type} (g : Grid α) {x y : Int} (v : α) (h : InB x y) :
    ∃ g', g.write x y v = Run.ok g' ∧
      ∀ x' y', g'.read x' y' =
        if x' = x ∧ y' = y then Run.ok v else g.read x' y' := by
  unfold Grid.write
  rw [dif_pos (show 0 ≤ x ∧ x < 8 ∧ 0 ≤ y ∧ y < 8 from h)]
  refine ⟨_, rfl, ?_⟩
  intro x' y'
  by_cases h' : InB x' y'
  · rw [Grid.read_of_inB _ h', Grid.read_of_inB _ h']
    unfold Grid.cell Grid.put
    unfold InB at h h'
    have e : ((⟨x'.toNat, by omega⟩ : Fin 8) = ⟨x.toNat, by omega⟩ ∧
        (⟨y'.toNat, by omega⟩ : Fin 8) = ⟨y.toNat, by omega⟩) ↔ (x' = x ∧ y' = y) := by
      simp only [Fin.mk.injEq]
      omega
    by_cases hc : x' = x ∧ y' = y
    · rw [if_pos hc, if_pos (e.mpr hc)]
    · rw [if_neg hc, if_neg (fun hh => hc (e.mp hh))]
  · rw [Grid.read_of_not_inB _ h', Grid.read_of_not_inB _ h']
    have hc : ¬ (x' = x ∧ y' = y) := by
      rintro ⟨rfl, rfl⟩
      exact h' h
    rw [if_neg hc]

theorem movePiece_ok (b : Board) {fx fy tx ty : Int} (hf : InB fx fy) (ht : InB tx ty) :
    ∃ r, movePiece b fx fy tx ty = Run.ok r ∧
      ∀ x y, r.read x y =
        if x = tx ∧ y = ty then b.read fx fy
        else if x = fx ∧ y = fy then Run.ok Square.zero
        else b.read x y := by
  obtain ⟨b1, h1, r1⟩ := Grid.write_ok b Square.zero hf
  obtain ⟨b2, h2, r2⟩ := Grid.write_ok b1 (b.cell fx fy hf) ht
  refine ⟨b2, ?_, ?_⟩
  · simp [movePiece, Grid.read_of_inB b hf, h1, h2]
  · intro x y
    rw [r2, r1, Grid.read_of_inB b hf]

theorem sameColor_ok (b : Board) {fx fy tx ty : Int} {f t : Square}
    (hf : b.read fx fy = Run.ok f) (ht : b.read tx ty = Run.ok t) :
    sameColor b fx fy tx ty = Run.ok (decide (t.piece ≠ Piece.Empty ∧ f.color = t.color)) := by
  unfold sameColor
  by_cases h : t.piece = Piece.Empty <;> simp [hf, ht, h]

theorem absDiff_eq (a b : Int) : absDiff a b = |a - b| := by
  unfold absDiff
  split
  · rw [abs_of_neg (by assumption)]
  · rw [abs_of_nonneg (by omega)]

/-! ## Path-walking loops and line geometry -/

/-- The path-walking loop of `validRookMove`, started `k` steps before the
target with more than `k` units of fuel, returns, and returns `true` exactly
when the `k` squares it walks over are empty. -/
theorem rookLoop_spec (b : Board) (tx ty dx dy : Int) (hd : dx ≠ 0 ∨ dy ≠ 0) :
    ∀ (k fuel : Nat) (x y : Int), k < fuel →
      tx = x + k * dx → ty = y + k * dy →
      (∀ j : Nat, j < k → InB (x + j * dx) (y + j * dy)) →
      ∃ v, rookLoop b tx ty dx dy fuel x y = Run.ok v ∧
        (v = true ↔ ∀ j : Nat, j < k → IsEmptyAt b (x + j * dx) (y + j * dy)) := by
  intro k
  induction k with
  | zero =>
    intro fuel x y hk hx hy _
    obtain ⟨n, rfl⟩ : ∃ n, fuel = n + 1 := ⟨fuel - 1, by omega⟩
    refine ⟨true, ?_, by simp⟩
    simp at hx hy
    simp [rookLoop, hx, hy]
  | succ k ih =>
    intro fuel x y hk hx hy hin
    obtain ⟨n, rfl⟩ : ∃ n, fuel = n + 1 := ⟨fuel - 1, by omega⟩
    have hne : x ≠ tx ∨ y ≠ ty := by
      rcases hd with h | h
      · left
        intro e
        have : ((k : Int) + 1) * dx = 0 := by push_cast at hx; linarith
        rcases mul_eq_zero.mp this with h1 | h1
        · omega
        · exact h h1
      · right
        intro e
        have : ((k : Int) + 1) * dy = 0 := by push_cast at hy; linarith
        rcases mul_eq_zero.mp this with h1 | h1
        · omega
        · exact h h1
    have h0 : InB x y := by simpa using hin 0 (by omega)
    have hrec := ih n (x + dx) (y + dy) (by omega)
      (by rw [hx]; push_cast; ring) (by rw [hy]; push_cast; ring)
      (fun j hj => by
        have := hin (j + 1) (by omega)
        push_cast at this
        have e1 : x + dx + (j : Int) * dx = x + ((j : Int) + 1) * dx := by ring
        have e2 : y + dy + (j : Int) * dy = y + ((j : Int) + 1) * dy := by ring
        rw [e1, e2]; exact this)
    obtain ⟨v, hv, hiff⟩ := hrec
    by_cases he : (b.cell x y h0).piece = Piece.Empty
    · refine ⟨v, ?_, ?_⟩
      · rw [rookLoop, if_pos hne, Grid.read_of_inB b h0]
        simp [he, hv]
      · rw [hiff]
        constructor
        · intro hall j hj
          rcases Nat.eq_zero_or_pos j with rfl | hpos
          · simp
            exact ⟨_, Grid.read_of_inB b h0, he⟩
          · have := hall (j - 1) (by omega)
            have e1 : x + dx + ((j - 1 : Nat) : Int) * dx = x + (j : Int) * dx := by
              rw [Nat.cast_sub hpos]; push_cast; ring
            have e2 : y + dy + ((j - 1 : Nat) : Int) * dy = y + (j : Int) * dy := by
              rw [Nat.cast_sub hpos]; push_cast; ring
            rw [e1, e2] at this; exact this
        · intro hall j hj
          have := hall (j + 1) (by omega)
          push_cast at this
          have e1 : x + dx + (j : Int) * dx = x + ((j : Int) + 1) * dx := by ring
          have e2 : y + dy + (j : Int) * dy = y + ((j : Int) + 1) * dy := by ring
          rw [e1, e2]; exact this
    · refine ⟨false, ?_, ?_⟩
      · rw [rookLoop, if_pos hne, Grid.read_of_inB b h0]
        simp [he]
      · simp only [Bool.false_eq_true, false_iff]
        intro hall
        obtain ⟨sq, hsq, hemp⟩ := hall 0 (by omega)
        simp at hsq
        rw [Grid.read_of_inB b h0] at hsq
        cases hsq
        exact he hemp

/-- The path-walking loop of `validBishopMove`, started `k` steps before the
target with more than `k` units of fuel, returns, and returns `true` exactly
when the `k` squares it walks over are empty. -/
theorem bishopLoop_spec (b : Board) (tx ty dx dy : Int) (hd : dx ≠ 0 ∧ dy ≠ 0) :
    ∀ (k fuel : Nat) (x y : Int), k < fuel →
      tx = x + k * dx → ty = y + k * dy →
      (∀ j : Nat, j < k → InB (x + j * dx) (y + j * dy)) →
      ∃ v, bishopLoop b tx ty dx dy fuel x y = Run.ok v ∧
        (v = true ↔ ∀ j : Nat, j < k → IsEmptyAt b (x + j * dx) (y + j * dy)) := by
  intro k
  induction k with
  | zero =>
    intro fuel x y hk hx hy _
    obtain ⟨n, rfl⟩ : ∃ n, fuel = n + 1 := ⟨fuel - 1, by omega⟩
    refine ⟨true, ?_, by simp⟩
    simp at hx hy
    simp [bishopLoop, hx, hy]
  | succ k ih =>
    intro fuel x y hk hx hy hin
    obtain ⟨n, rfl⟩ : ∃ n, fuel = n + 1 := ⟨fuel - 1, by omega⟩
    have hne : x ≠ tx ∧ y ≠ ty := by
      obtain ⟨h, h'⟩ := hd
      constructor
      · intro e
        have : ((k : Int) + 1) * dx = 0 := by push_cast at hx; linarith
        rcases mul_eq_zero.mp this with h1 | h1
        · omega
        · exact h h1
      · intro e
        have : ((k : Int) + 1) * dy = 0 := by push_cast at hy; linarith
        rcases mul_eq_zero.mp this with h1 | h1
        · omega
        · exact h' h1
    have h0 : InB x y := by simpa using hin 0 (by omega)
    have hrec := ih n (x + dx) (y + dy) (by omega)
      (by rw [hx]; push_cast; ring) (by rw [hy]; push_cast; ring)
      (fun j hj => by
        have := hin (j + 1) (by omega)
        push_cast at this
        have e1 : x + dx + (j : Int) * dx = x + ((j : Int) + 1) * dx := by ring
        have e2 : y + dy + (j : Int) * dy = y + ((j : Int) + 1) * dy := by ring
        rw [e1, e2]; exact this)
    obtain ⟨v, hv, hiff⟩ := hrec
    by_cases he : (b.cell x y h0).piece = Piece.Empty
    · refine ⟨v, ?_, ?_⟩
      · rw [bishopLoop, if_pos hne, Grid.read_of_inB b h0]
        simp [he, hv]
      · rw [hiff]
        constructor
        · intro hall j hj
          rcases Nat.eq_zero_or_pos j with rfl | hpos
          · simp
            exact ⟨_, Grid.read_of_inB b h0, he⟩
          · have := hall (j - 1) (by omega)
            have e1 : x + dx + ((j - 1 : Nat) : Int) * dx = x + (j : Int) * dx := by
              rw [Nat.cast_sub hpos]; push_cast; ring
            have e2 : y + dy + ((j - 1 : Nat) : Int) * dy = y + (j : Int) * dy := by
              rw [Nat.cast_sub hpos]; push_cast; ring
            rw [e1, e2] at this; exact this
        · intro hall j hj
          have := hall (j + 1) (by omega)
          push_cast at this
          have e1 : x + dx + (j : Int) * dx = x + ((j : Int) + 1) * dx := by ring
          have e2 : y + dy + (j : Int) * dy = y + ((j : Int) + 1) * dy := by ring
          rw [e1, e2]; exact this
    · refine ⟨false, ?_, ?_⟩
      · rw [bishopLoop, if_pos hne, Grid.read_of_inB b h0]
        simp [he]
      · simp only [Bool.false_eq_true, false_iff]
        intro hall
        obtain ⟨sq, hsq, hemp⟩ := hall 0 (by omega)
        simp at hsq
        rw [Grid.read_of_inB b h0] at hsq
        cases hsq
        exact he hemp

theorem sign_cases (a : Int) :
    (0 < a ∧ Int.sign a = 1) ∨ (a = 0 ∧ Int.sign a = 0) ∨ (a < 0 ∧ Int.sign a = -1) := by
  rcases lt_trichotomy 0 a with h | h | h
  · exact Or.inl ⟨h, Int.sign_eq_one_of_pos h⟩
  · exact Or.inr (Or.inl ⟨h.symm, by rw [← h]; rfl⟩)
  · exact Or.inr (Or.inr ⟨h, Int.sign_eq_neg_one_of_neg h⟩)

/-- The distance `max |a| |b|`, unfolded into linear facts. -/
theorem dist_cases (a b : Int) :
    ∃ n : Int, max |a| |b| = n ∧ 0 ≤ n ∧ a ≤ n ∧ -a ≤ n ∧ b ≤ n ∧ -b ≤ n ∧
      (n = a ∨ n = -a ∨ n = b ∨ n = -b) := by
  refine ⟨max |a| |b|, rfl, ?_⟩
  rcases abs_cases a with ⟨h1, h2⟩ | ⟨h1, h2⟩ <;>
  rcases abs_cases b with ⟨h3, h4⟩ | ⟨h3, h4⟩ <;>
  rcases max_cases |a| |b| with ⟨h5, h6⟩ | ⟨h5, h6⟩ <;>
  rw [h5] <;> omega

/-- For aligned squares, `PathClear` is the emptiness of the `n - 1` squares
reached from the origin by repeating the unit step towards the destination. -/
theorem pathClear_iff_steps (b : Board) (fx fy tx ty : Int) (n : Nat)
    (hn : max |tx - fx| |ty - fy| = (n : Int) + 1) :
    PathClear b fx fy tx ty ↔
      ∀ j : Nat, j < n →
        IsEmptyAt b (fx + Int.sign (tx - fx) + j * Int.sign (tx - fx))
          (fy + Int.sign (ty - fy) + j * Int.sign (ty - fy)) := by
  unfold PathClear
  rw [hn]
  constructor
  · intro h j hj
    have := h ((j : Int) + 1) (by omega) (by omega)
    have e1 : fx + Int.sign (tx - fx) + (j : Int) * Int.sign (tx - fx)
        = fx + ((j : Int) + 1) * Int.sign (tx - fx) := by ring
    have e2 : fy + Int.sign (ty - fy) + (j : Int) * Int.sign (ty - fy)
        = fy + ((j : Int) + 1) * Int.sign (ty - fy) := by ring
    rw [e1, e2]; exact this
  · intro h j hj0 hj1
    have := h (j - 1).toNat (by omega)
    have e : (((j - 1).toNat : Nat) : Int) = j - 1 := Int.toNat_of_nonneg (by omega)
    rw [e] at this
    have e1 : fx + Int.sign (tx - fx) + (j - 1) * Int.sign (tx - fx)
        = fx + j * Int.sign (tx - fx) := by ring
    have e2 : fy + Int.sign (ty - fy) + (j - 1) * Int.sign (ty - fy)
        = fy + j * Int.sign (ty - fy) := by ring
    rw [e1, e2] at this; exact this

/-- Geometry of two distinct aligned in-bounds squares: the destination is
`n + 1` unit steps from the origin, `n ≤ 6`, and every square on the way is in
bounds. -/
theorem aligned_steps {fx fy tx ty : Int} (hf : InB fx fy) (ht : InB tx ty)
    (hal : Aligned fx fy tx ty) (hne : ¬ (tx = fx ∧ ty = fy)) :
    ∃ n : Nat, n < 7 ∧ max |tx - fx| |ty - fy| = (n : Int) + 1 ∧
      tx = fx + Int.sign (tx - fx) + n * Int.sign (tx - fx) ∧
      ty = fy + Int.sign (ty - fy) + n * Int.sign (ty - fy) ∧
      ∀ j : Nat, j < n →
        InB (fx + Int.sign (tx - fx) + j * Int.sign (tx - fx))
          (fy + Int.sign (ty - fy) + j * Int.sign (ty - fy)) := by
  obtain ⟨m, hm, h0, h1, h2, h3, h4, h5⟩ := dist_cases (tx - fx) (ty - fy)
  unfold InB at hf ht
  unfold Aligned at hal
  have ha1 := abs_cases (tx - fx)
  have ha2 := abs_cases (ty - fy)
  refine ⟨(m - 1).toNat, by omega, by rw [hm]; omega, ?_⟩
  have e : (((m - 1).toNat : Nat) : Int) = m - 1 := Int.toNat_of_nonneg (by omega)
  rw [e]
  rcases sign_cases (tx - fx) with ⟨s1, s2⟩ | ⟨s1, s2⟩ | ⟨s1, s2⟩ <;>
  rcases sign_cases (ty - fy) with ⟨s3, s4⟩ | ⟨s3, s4⟩ | ⟨s3, s4⟩ <;>
  rw [s2, s4] <;>
  simp only [mul_one, mul_zero, mul_neg, add_zero] <;>
  refine ⟨by omega, by omega, fun j hj => ?_⟩ <;>
  unfold InB <;> omega

theorem rookStep_eq (f t : Int) :
    (if f < t then (1 : Int) else if f > t then -1 else 0) = Int.sign (t - f) := by
  rcases sign_cases (t - f) with ⟨s1, s2⟩ | ⟨s1, s2⟩ | ⟨s1, s2⟩ <;> rw [s2]
  · rw [if_pos (by omega)]
  · rw [if_neg (by omega), if_neg (by omega)]
  · rw [if_neg (by omega), if_pos (by omega)]

theorem bishopStep_eq (f t : Int) (h : t ≠ f) :
    (if t < f then (-1 : Int) else 1) = Int.sign (t - f) := by
  rcases sign_cases (t - f) with ⟨s1, s2⟩ | ⟨s1, s2⟩ | ⟨s1, s2⟩ <;> rw [s2]
  · rw [if_neg (by omega)]
  · omega
  · rw [if_pos (by omega)]

theorem ownedBy_iff (b : Board) {x y : Int} {t : Square} (ht : b.read x y = Run.ok t)
    (c : Color) : OwnedBy b x y c ↔ t.piece ≠ Piece.Empty ∧ t.color = c := by
  unfold OwnedBy
  constructor
  · rintro ⟨sq, h1, h2, h3⟩
    rw [ht] at h1
    cases h1
    exact ⟨h2, h3⟩
  · rintro ⟨h2, h3⟩
    exact ⟨t, ht, h2, h3⟩

/-- What `validRookMove` computes when the origin holds a piece. -/
theorem validRookMove_spec (b : Board) (fx fy tx ty : Int) (f : Square)
    (hf : b.read fx fy = Run.ok f) (hp : f.piece ≠ Piece.Empty) :
    ∃ v, validRookMove b fx fy tx ty = Run.ok v ∧
      (v = true ↔
        InB tx ty ∧ ((fx ≠ tx ∧ fy = ty) ∨ (fx = tx ∧ fy ≠ ty)) ∧
          ¬ OwnedBy b tx ty f.color ∧ PathClear b fx fy tx ty) := by
  have hfin : InB fx fy := Grid.inB_of_read hf
  by_cases ht : InB tx ty
  swap
  · refine ⟨false, ?_, ?_⟩
    · simp [validRookMove, (inBounds_false_iff tx ty).mpr ht]
    · simp [ht]
  have hib : inBounds tx ty = true := (inBounds_iff tx ty).mpr ht
  by_cases hboth : fx ≠ tx ∧ fy ≠ ty
  · refine ⟨false, ?_, ?_⟩
    · simp only [validRookMove, hib]
      simp [hboth]
    · simp only [Bool.false_eq_true, false_iff]
      rintro ⟨-, h, -⟩
      omega
  have htr := Grid.read_of_inB b ht
  have hsc := sameColor_ok b hf htr
  by_cases hsame : (b.cell tx ty ht).piece ≠ Piece.Empty ∧ f.color = (b.cell tx ty ht).color
  · refine ⟨false, ?_, ?_⟩
    · simp only [validRookMove, hib]
      rw [if_neg hboth, hsc]
      simp [hsame]
    · simp only [Bool.false_eq_true, false_iff]
      rintro ⟨-, -, h, -⟩
      exact h ((ownedBy_iff b htr f.color).mpr ⟨hsame.1, hsame.2.symm⟩)
  have hne : ¬ (tx = fx ∧ ty = fy) := by
    rintro ⟨rfl, rfl⟩
    rw [hf] at htr
    cases htr
    exact hsame ⟨hp, rfl⟩
  have hal : Aligned fx fy tx ty := by
    unfold Aligned
    by_cases h : fx = tx
    · exact Or.inl h.symm
    · right; left
      by_contra h'
      exact hboth ⟨h, fun e => h' e.symm⟩
  obtain ⟨n, hn7, hmax, hx, hy, hin⟩ := aligned_steps hfin ht hal hne
  have hd : Int.sign (tx - fx) ≠ 0 ∨ Int.sign (ty - fy) ≠ 0 := by
    by_contra hcon
    push_neg at hcon
    rw [Int.sign_eq_zero_iff_zero, Int.sign_eq_zero_iff_zero] at hcon
    exact hne ⟨by omega, by omega⟩
  obtain ⟨v, hv, hiff⟩ := rookLoop_spec b tx ty _ _ hd n loopFuel
    (fx + Int.sign (tx - fx)) (fy + Int.sign (ty - fy))
    (by unfold loopFuel; omega) hx hy hin
  refine ⟨v, ?_, ?_⟩
  · simp only [validRookMove, hib]
    rw [if_neg hboth, hsc]
    simp only [hsame, decide_False, Run.ok_bind, rookStep_eq]
    simpa using hv
  · rw [hiff, ← pathClear_iff_steps b fx fy tx ty n hmax]
    constructor
    · intro hpc
      refine ⟨ht, ?_, ?_, hpc⟩
      · omega
      · intro ho
        have := (ownedBy_iff b htr f.color).mp ho
        exact hsame ⟨this.1, this.2.symm⟩
    · exact fun h => h.2.2.2

/-- What `validBishopMove` computes when the origin holds a piece. -/
theorem validBishopMove_spec (b : Board) (fx fy tx ty : Int) (f : Square)
    (hf : b.read fx fy = Run.ok f) (hp : f.piece ≠ Piece.Empty) :
    ∃ v, validBishopMove b fx fy tx ty = Run.ok v ∧
      (v = true ↔
        InB tx ty ∧ |fx - tx| = |fy - ty| ∧ |fx - tx| ≠ 0 ∧
          ¬ OwnedBy b tx ty f.color ∧ PathClear b fx fy tx ty) := by
  have hfin : InB fx fy := Grid.inB_of_read hf
  by_cases ht : InB tx ty
  swap
  · refine ⟨false, ?_, ?_⟩
    · simp [validBishopMove, (inBounds_false_iff tx ty).mpr ht]
    · simp [ht]
  have hib : inBounds tx ty = true := (inBounds_iff tx ty).mpr ht
  by_cases hdiag : |fx - tx| = |fy - ty|
  swap
  · refine ⟨false, ?_, ?_⟩
    · simp only [validBishopMove, hib, absDiff_eq]
      simp [hdiag]
    · simp [hdiag]
  have htr := Grid.read_of_inB b ht
  have hsc := sameColor_ok b hf htr
  by_cases hsame : (b.cell tx ty ht).piece ≠ Piece.Empty ∧ f.color = (b.cell tx ty ht).color
  · refine ⟨false, ?_, ?_⟩
    · simp only [validBishopMove, hib, absDiff_eq]
      simp [hdiag, hsc, hsame]
    · simp only [Bool.false_eq_true, false_iff]
      rintro ⟨-, -, -, h, -⟩
      exact h ((ownedBy_iff b htr f.color).mpr ⟨hsame.1, hsame.2.symm⟩)
  have hne : ¬ (tx = fx ∧ ty = fy) := by
    rintro ⟨rfl, rfl⟩
    rw [hf] at htr
    cases htr
    exact hsame ⟨hp, rfl⟩
  have hxy : tx ≠ fx ∧ ty ≠ fy := by
    have a1 := abs_cases (fx - tx)
    have a2 := abs_cases (fy - ty)
    constructor <;> intro e <;> apply hne <;> omega
  have hal : Aligned fx fy tx ty := by
    unfold Aligned
    right; right
    rw [abs_sub_comm tx fx, abs_sub_comm ty fy]
    exact hdiag
  obtain ⟨n, hn7, hmax, hx, hy, hin⟩ := aligned_steps hfin ht hal hne
  have hd : Int.sign (tx - fx) ≠ 0 ∧ Int.sign (ty - fy) ≠ 0 := by
    rw [Ne, Ne, Int.sign_eq_zero_iff_zero, Int.sign_eq_zero_iff_zero]
    omega
  obtain ⟨v, hv, hiff⟩ := bishopLoop_spec b tx ty _ _ hd n loopFuel
    (fx + Int.sign (tx - fx)) (fy + Int.sign (ty - fy))
    (by unfold loopFuel; omega) hx hy hin
  refine ⟨v, ?_, ?_⟩
  · simp only [validBishopMove, hib, absDiff_eq]
    simp only [hdiag, hsc, hsame, bishopStep_eq fx tx hxy.1, bishopStep_eq fy ty hxy.2]
    simpa using hv
  · rw [hiff, ← pathClear_iff_steps b fx fy tx ty n hmax]
    constructor
    · intro hpc
      refine ⟨ht, hdiag, ?_, ?_, hpc⟩
      · have a1 := abs_cases (fx - tx)
        omega
      · intro ho
        have := (ownedBy_iff b htr f.color).mp ho
        exact hsame ⟨this.1, this.2.symm⟩
    · exact fun h => h.2.2.2.2

/-- What `validQueenMove` computes when the origin holds a piece. -/
theorem validQueenMove_spec (b : Board) (fx fy tx ty : Int) (f : Square)
    (hf : b.read fx fy = Run.ok f) (hp : f.piece ≠ Piece.Empty) :
    ∃ v, validQueenMove b fx fy tx ty = Run.ok v ∧
      (v = true ↔
        (InB tx ty ∧ ((fx ≠ tx ∧ fy = ty) ∨ (fx = tx ∧ fy ≠ ty)) ∧
          ¬ OwnedBy b tx ty f.color ∧ PathClear b fx fy tx ty) ∨
        (InB tx ty ∧ |fx - tx| = |fy - ty| ∧ |fx - tx| ≠ 0 ∧
          ¬ OwnedBy b tx ty f.color ∧ PathClear b fx fy tx ty)) := by
  obtain ⟨v1, h1, i1⟩ := validRookMove_spec b fx fy tx ty f hf hp
  obtain ⟨v2, h2, i2⟩ := validBishopMove_spec b fx fy tx ty f hf hp
  rw [← i1, ← i2]
  cases v1 with
  | true => exact ⟨true, by simp [validQueenMove, h1], by simp⟩
  | false => exact ⟨v2, by simp [validQueenMove, h1, h2], by simp⟩

/-! ## Attack marking -/

theorem Marks.congr {a a' : AttackMap} {P Q : Int → Int → Prop} (h : Marks a a' P)
    (hPQ : ∀ tx ty, InB tx ty → (P tx ty ↔ Q tx ty)) : Marks a a' Q := by
  intro tx ty ht
  rw [h tx ty ht, hPQ tx ty ht]

theorem Marks.refl (a : AttackMap) : Marks a a (fun _ _ => False) := by
  intro tx ty _
  simp

theorem Marks.trans {a a' a'' : AttackMap} {P Q : Int → Int → Prop} (h : Marks a a' P)
    (h' : Marks a' a'' Q) : Marks a a'' (fun tx ty => P tx ty ∨ Q tx ty) := by
  intro tx ty ht
  rw [h' tx ty ht, h tx ty ht, or_assoc]

theorem markIfInBounds_spec (a : AttackMap) (x y : Int) :
    ∃ a', markIfInBounds a x y = Run.ok a' ∧ Marks a a' (fun tx ty => tx = x ∧ ty = y) := by
  unfold markIfInBounds
  by_cases h : InB x y
  · obtain ⟨a', h1, h2⟩ := Grid.write_ok a true h
    refine ⟨a', by rw [if_pos ((inBounds_iff x y).mpr h), h1], ?_⟩
    intro tx ty _
    rw [h2]
    by_cases e : tx = x ∧ ty = y
    · simp [e]
    · simp [e]
  · refine ⟨a, by simp [(inBounds_false_iff x y).mpr h], ?_⟩
    intro tx ty ht
    have : ¬ (tx = x ∧ ty = y) := by
      rintro ⟨rfl, rfl⟩
      exact h ht
    simp [this]

/-- A loop whose every iteration marks the squares `P i` marks, in total, the
squares `P i` for the `i` it ranges over. -/
theorem foldlM_marks {ι : Type} (step : AttackMap → ι → Run AttackMap)
    (P : ι → Int → Int → Prop) :
    ∀ (l : List ι), (∀ i ∈ l, ∀ a, ∃ a', step a i = Run.ok a' ∧ Marks a a' (P i)) →
      ∀ a, ∃ a', l.foldlM step a = Run.ok a' ∧
        Marks a a' (fun tx ty => ∃ i ∈ l, P i tx ty) := by
  intro l
  induction l with
  | nil =>
    intro _ a
    exact ⟨a, rfl, (Marks.refl a).congr (by simp)⟩
  | cons i l ih =>
    intro h a
    obtain ⟨a1, h1, m1⟩ := h i (List.mem_cons_self i l) a
    obtain ⟨a2, h2, m2⟩ := ih (fun j hj => h j (List.mem_cons_of_mem i hj)) a1
    refine ⟨a2, ?_, ?_⟩
    · rw [List.foldlM_cons, h1]
      exact h2
    · exact (m1.trans m2).congr (by simp)

/-- One ray of `markSlidingAttacks`: when the square `n` steps ahead is off the
board, `n + 1` units of fuel are enough, and the ray marks every square up to
and including the first occupied one. -/
theorem slideRay_spec (b : Board) (d : Int × Int) :
    ∀ (n : Nat) (x y : Int) (a : AttackMap), ¬ InB (x + n * d.1) (y + n * d.2) →
      ∃ a', slideRay b d (n + 1) x y a = Run.ok a' ∧
        Marks a a' (fun tx ty => ∃ k : Nat, tx = x + k * d.1 ∧ ty = y + k * d.2 ∧
          ∀ j : Nat, j < k → IsEmptyAt b (x + j * d.1) (y + j * d.2)) := by
  have hout : ∀ (x y : Int) (a : AttackMap), ¬ InB x y →
      Marks a a (fun tx ty => ∃ k : Nat, tx = x + k * d.1 ∧ ty = y + k * d.2 ∧
          ∀ j : Nat, j < k → IsEmptyAt b (x + j * d.1) (y + j * d.2)) := by
    intro x y a hxy
    refine (Marks.refl a).congr ?_
    intro tx ty ht
    simp only [false_iff, not_exists, not_and]
    intro k hx hy hall
    rcases Nat.eq_zero_or_pos k with rfl | hk
    · simp at hx hy
      subst hx hy
      exact hxy ht
    · obtain ⟨sq, hsq, -⟩ := hall 0 hk
      simp at hsq
      exact hxy (Grid.inB_of_read hsq)
  intro n
  induction n with
  | zero =>
    intro x y a hxy
    simp at hxy
    exact ⟨a, by simp [slideRay, (inBounds_false_iff x y).mpr hxy], hout x y a hxy⟩
  | succ n ih =>
    intro x y a hfar
    by_cases hxy : InB x y
    swap
    · exact ⟨a, by simp [slideRay, (inBounds_false_iff x y).mpr hxy], hout x y a hxy⟩
    obtain ⟨a1, hw, hr⟩ := Grid.write_ok a true hxy
    have hm1 : Marks a a1 (fun tx ty => tx = x ∧ ty = y) := by
      intro tx ty _
      rw [hr]
      by_cases e : tx = x ∧ ty = y <;> simp [e]
    by_cases he : (b.cell x y hxy).piece = Piece.Empty
    · have hfar' : ¬ InB (x + d.1 + n * d.1) (y + d.2 + n * d.2) := by
        intro hh
        apply hfar
        push_cast
        have e1 : x + ((n : Int) + 1) * d.1 = x + d.1 + n * d.1 := by ring
        have e2 : y + ((n : Int) + 1) * d.2 = y + d.2 + n * d.2 := by ring
        rw [e1, e2]; exact hh
      obtain ⟨a2, h2, m2⟩ := ih (x + d.1) (y + d.2) a1 hfar'
      refine ⟨a2, ?_, ?_⟩
      · rw [slideRay, if_pos ((inBounds_iff x y).mpr hxy), hw]
        simp [Grid.read_of_inB b hxy, he, h2]
      · refine (hm1.trans m2).congr ?_
        intro tx ty ht
        constructor
        · rintro (⟨rfl, rfl⟩ | ⟨k, hx, hy, hall⟩)
          · exact ⟨0, by simp, by simp, by simp⟩
          · refine ⟨k + 1, by rw [hx]; push_cast; ring, by rw [hy]; push_cast; ring, ?_⟩
            intro j hj
            rcases Nat.eq_zero_or_pos j with rfl | hpos
            · simp
              exact ⟨_, Grid.read_of_inB b hxy, he⟩
            · have := hall (j - 1) (by omega)
              have e1 : x + d.1 + ((j - 1 : Nat) : Int) * d.1 = x + (j : Int) * d.1 := by
                rw [Nat.cast_sub hpos]; push_cast; ring
              have e2 : y + d.2 + ((j - 1 : Nat) : Int) * d.2 = y + (j : Int) * d.2 := by
                rw [Nat.cast_sub hpos]; push_cast; ring
              rw [e1, e2] at this; exact this
        · rintro ⟨k, hx, hy, hall⟩
          rcases Nat.eq_zero_or_pos k with rfl | hpos
          · left
            simpa using And.intro hx hy
          · right
            refine ⟨k - 1, ?_, ?_, ?_⟩
            · rw [hx, Nat.cast_sub hpos]; push_cast; ring
            · rw [hy, Nat.cast_sub hpos]; push_cast; ring
            · intro j hj
              have := hall (j + 1) (by omega)
              push_cast at this
              have e1 : x + d.1 + (j : Int) * d.1 = x + ((j : Int) + 1) * d.1 := by ring
              have e2 : y + d.2 + (j : Int) * d.2 = y + ((j : Int) + 1) * d.2 := by ring
              rw [e1, e2]; exact this
    · refine ⟨a1, ?_, ?_⟩
      · rw [slideRay, if_pos ((inBounds_iff x y).mpr hxy), hw]
        simp [Grid.read_of_inB b hxy, he]
      · refine hm1.congr ?_
        intro tx ty ht
        constructor
        · rintro ⟨rfl, rfl⟩
          exact ⟨0, by simp, by simp, by simp⟩
        · rintro ⟨k, hx, hy, hall⟩
          rcases Nat.eq_zero_or_pos k with rfl | hpos
          · simpa using And.intro hx hy
          · exfalso
            obtain ⟨sq, hsq, hemp⟩ := hall 0 hpos
            simp at hsq
            rw [Grid.read_of_inB b hxy] at hsq
            cases hsq
            exact he hemp

/-- A square is reached by the ray leaving `(fx, fy)` in the unit direction
`(d1, d2)` over empty squares exactly when it lies in that direction on a
common rank, file or diagonal and the squares strictly between are empty. -/
theorem ray_iff (b : Board) {fx fy tx ty : Int} (hf : InB fx fy) (ht : InB tx ty)
    (d1 d2 : Int) (hd1 : d1 = -1 ∨ d1 = 0 ∨ d1 = 1) (hd2 : d2 = -1 ∨ d2 = 0 ∨ d2 = 1)
    (hd : ¬ (d1 = 0 ∧ d2 = 0)) :
    (∃ k : Nat, tx = fx + d1 + k * d1 ∧ ty = fy + d2 + k * d2 ∧
        ∀ j : Nat, j < k → IsEmptyAt b (fx + d1 + j * d1) (fy + d2 + j * d2)) ↔
      (Int.sign (tx - fx) = d1 ∧ Int.sign (ty - fy) = d2 ∧ Aligned fx fy tx ty ∧
        PathClear b fx fy tx ty) := by
  constructor
  · rintro ⟨k, hx, hy, hall⟩
    have hs1 : Int.sign (tx - fx) = d1 := by
      have := sign_cases (tx - fx)
      rcases hd1 with rfl | rfl | rfl <;> simp only [mul_one, mul_neg, mul_zero] at hx <;> omega
    have hs2 : Int.sign (ty - fy) = d2 := by
      have := sign_cases (ty - fy)
      rcases hd2 with rfl | rfl | rfl <;> simp only [mul_one, mul_neg, mul_zero] at hy <;> omega
    obtain ⟨m, hm, h0, h1, h2, h3, h4, h5⟩ := dist_cases (tx - fx) (ty - fy)
    have a1 := abs_cases (tx - fx)
    have a2 := abs_cases (ty - fy)
    have hmk : m = (k : Int) + 1 := by
      rcases hd1 with rfl | rfl | rfl <;> rcases hd2 with rfl | rfl | rfl <;>
        simp only [mul_one, mul_neg, mul_zero] at hx hy <;> omega
    have hal : Aligned fx fy tx ty := by
      unfold Aligned
      rcases hd1 with rfl | rfl | rfl <;> rcases hd2 with rfl | rfl | rfl <;>
        simp only [mul_one, mul_neg, mul_zero] at hx hy <;> omega
    refine ⟨hs1, hs2, hal, ?_⟩
    rw [pathClear_iff_steps b fx fy tx ty k (by rw [hm, hmk]), hs1, hs2]
    exact hall
  · rintro ⟨hs1, hs2, hal, hpc⟩
    have hne : ¬ (tx = fx ∧ ty = fy) := by
      rintro ⟨rfl, rfl⟩
      simp at hs1 hs2
      exact hd ⟨hs1.symm, hs2.symm⟩
    obtain ⟨n, -, hmax, hx, hy, -⟩ := aligned_steps hf ht hal hne
    rw [pathClear_iff_steps b fx fy tx ty n hmax] at hpc
    rw [hs1] at hx hpc
    rw [hs2] at hy hpc
    exact ⟨n, hx, hy, hpc⟩

theorem mem_coords_iff (x : Int) : x ∈ coords ↔ 0 ≤ x ∧ x < 8 := by
  simp only [coords, List.mem_cons, List.mem_singleton, List.not_mem_nil, or_false]
  omega

/-- What `markSlidingAttacks` marks, for any sub-table of the eight unit
directions. -/
theorem markSlidingAttacks_spec (b : Board) {fx fy : Int} (hf : InB fx fy)
    (dirs : List (Int × Int)) (hdirs : ∀ d ∈ dirs, d ∈ queenDirs) (a : AttackMap) :
    ∃ a', markSlidingAttacks b fx fy a dirs = Run.ok a' ∧
      Marks a a' (fun tx ty =>
        (Int.sign (tx - fx), Int.sign (ty - fy)) ∈ dirs ∧ Aligned fx fy tx ty ∧
          PathClear b fx fy tx ty) := by
  unfold markSlidingAttacks
  have hunit : ∀ d ∈ dirs, (d.1 = -1 ∨ d.1 = 0 ∨ d.1 = 1) ∧ (d.2 = -1 ∨ d.2 = 0 ∨ d.2 = 1) ∧
      ¬ (d.1 = 0 ∧ d.2 = 0) := by
    intro d hd
    have := hdirs d hd
    simp only [queenDirs, rookDirs, bishopDirs, List.cons_append, List.nil_append,
      List.mem_cons, List.mem_singleton, List.not_mem_nil, or_false] at this
    rcases this with rfl | rfl | rfl | rfl | rfl | rfl | rfl | rfl <;> simp
  obtain ⟨a', h1, m1⟩ := foldlM_marks
    (fun a d => slideRay b d loopFuel (fx + d.1) (fy + d.2) a)
    (fun d tx ty => ∃ k : Nat, tx = fx + d.1 + k * d.1 ∧ ty = fy + d.2 + k * d.2 ∧
          ∀ j : Nat, j < k → IsEmptyAt b (fx + d.1 + j * d.1) (fy + d.2 + j * d.2))
    dirs
    (fun d hd a => by
      obtain ⟨u1, u2, u3⟩ := hunit d hd
      apply slideRay_spec b d 7 (fx + d.1) (fy + d.2) a
      unfold InB at hf ⊢
      rcases u1 with h | h | h <;> rcases u2 with h' | h' | h' <;> rw [h, h'] <;>
        push_cast <;> omega)
    a
  refine ⟨a', h1, m1.congr ?_⟩
  intro tx ty ht
  constructor
  · rintro ⟨d, hd, hray⟩
    obtain ⟨u1, u2, u3⟩ := hunit d hd
    obtain ⟨s1, s2, hal, hpc⟩ := (ray_iff b hf ht d.1 d.2 u1 u2 u3).mp hray
    refine ⟨?_, hal, hpc⟩
    rw [s1, s2]
    exact hd
  · rintro ⟨hd, hal, hpc⟩
    obtain ⟨u1, u2, u3⟩ := hunit _ hd
    exact ⟨_, hd, (ray_iff b hf ht _ _ u1 u2 u3).mpr ⟨rfl, rfl, hal, hpc⟩⟩

theorem knight_offsets_iff (fx fy tx ty : Int) :
    (∃ o ∈ knightOffsets, tx = fx + o.1 ∧ ty = fy + o.2) ↔
      ((|tx - fx| = 2 ∧ |ty - fy| = 1) ∨ (|tx - fx| = 1 ∧ |ty - fy| = 2)) := by
  simp only [knightOffsets, List.mem_cons, List.mem_singleton, List.not_mem_nil, or_false,
    exists_eq_or_imp, exists_eq_left]
  constructor
  · rintro (⟨rfl, rfl⟩ | ⟨rfl, rfl⟩ | ⟨rfl, rfl⟩ | ⟨rfl, rfl⟩ | ⟨rfl, rfl⟩ | ⟨rfl, rfl⟩ |
      ⟨rfl, rfl⟩ | ⟨rfl, rfl⟩) <;> simp
  · intro h
    rcases abs_cases (tx - fx) with ⟨h1, h2⟩ | ⟨h1, h2⟩ <;>
    rcases abs_cases (ty - fy) with ⟨h3, h4⟩ | ⟨h3, h4⟩ <;>
    rw [h1, h3] at h <;>
    rcases h with ⟨h5, h6⟩ | ⟨h5, h6⟩ <;> omega

theorem king_offsets_iff (fx fy tx ty : Int) :
    (∃ dx ∈ ([-1, 0, 1] : List Int), ∃ dy ∈ ([-1, 0, 1] : List Int),
      ¬ (dx = 0 ∧ dy = 0) ∧ tx = fx + dx ∧ ty = fy + dy) ↔
      (|tx - fx| ≤ 1 ∧ |ty - fy| ≤ 1 ∧ ¬ (tx = fx ∧ ty = fy)) := by
  simp only [List.mem_cons, List.mem_singleton, List.not_mem_nil, or_false,
    exists_eq_or_imp, exists_eq_left, and_true, true_and, not_true_eq_false, false_and,
    false_or]
  rw [abs_le, abs_le]
  constructor
  · intro h
    omega
  · intro h
    omega

theorem sliding_dirs_iff (fx fy tx ty : Int) :
    (((Int.sign (tx - fx), Int.sign (ty - fy)) ∈ rookDirs ∧ Aligned fx fy tx ty) ↔
      ((tx = fx ∨ ty = fy) ∧ ¬ (tx = fx ∧ ty = fy))) ∧
    (((Int.sign (tx - fx), Int.sign (ty - fy)) ∈ bishopDirs ∧ Aligned fx fy tx ty) ↔
      (|tx - fx| = |ty - fy| ∧ ¬ (tx = fx ∧ ty = fy))) ∧
    (((Int.sign (tx - fx), Int.sign (ty - fy)) ∈ queenDirs ∧ Aligned fx fy tx ty) ↔
      ((tx = fx ∨ ty = fy ∨ |tx - fx| = |ty - fy|) ∧ ¬ (tx = fx ∧ ty = fy))) := by
  simp only [Aligned, queenDirs, rookDirs, bishopDirs, List.cons_append,
      List.nil_append, List.mem_cons, List.mem_singleton,
      List.not_mem_nil, or_false, Prod.mk.injEq]
  rcases sign_cases (tx - fx) with ⟨s1, s2⟩ | ⟨s1, s2⟩ | ⟨s1, s2⟩ <;>
  rcases sign_cases (ty - fy) with ⟨s3, s4⟩ | ⟨s3, s4⟩ | ⟨s3, s4⟩ <;>
  rcases abs_cases (tx - fx) with ⟨h1, h2⟩ | ⟨h1, h2⟩ <;>
  rcases abs_cases (ty - fy) with ⟨h3, h4⟩ | ⟨h3, h4⟩ <;>
  rw [s2, s4, h1, h3] <;>
  refine ⟨⟨fun _ => ?_, fun _ => ?_⟩, ⟨fun _ => ?_, fun _ => ?_⟩, ⟨fun _ => ?_, fun _ => ?_⟩⟩ <;>
  omega

theorem markKnightAttacks_spec (fx fy : Int) (a : AttackMap) :
    ∃ a', markKnightAttacks fx fy a = Run.ok a' ∧
      Marks a a' (fun tx ty =>
        (|tx - fx| = 2 ∧ |ty - fy| = 1) ∨ (|tx - fx| = 1 ∧ |ty - fy| = 2)) := by
  unfold markKnightAttacks
  obtain ⟨a', h1, m1⟩ := foldlM_marks
    (fun a (o : Int × Int) => markIfInBounds a (fx + o.1) (fy + o.2))
    (fun o tx ty => tx = fx + o.1 ∧ ty = fy + o.2) knightOffsets
    (fun o _ a => markIfInBounds_spec a (fx + o.1) (fy + o.2)) a
  exact ⟨a', h1, m1.congr (fun tx ty _ => knight_offsets_iff fx fy tx ty)⟩

theorem markPawnAttacks_spec (b : Board) {fx fy : Int} {sq : Square}
    (hf : b.read fx fy = Run.ok sq) (a : AttackMap) :
    ∃ a', markPawnAttacks b fx fy a = Run.ok a' ∧
      Marks a a' (fun tx ty => tx = fx + pawnDir sq.color ∧ (ty = fy - 1 ∨ ty = fy + 1)) := by
  unfold markPawnAttacks
  rw [hf]
  simp only [Run.ok_bind]
  have hdir : (if sq.color = Color.Black then (-1 : Int) else 1) = pawnDir sq.color := by
    cases sq.color <;> simp [pawnDir]
  rw [hdir]
  obtain ⟨a', h1, m1⟩ := foldlM_marks
    (fun a (dy : Int) => markIfInBounds a (fx + pawnDir sq.color) (fy + dy))
    (fun dy tx ty => tx = fx + pawnDir sq.color ∧ ty = fy + dy) [-1, 1]
    (fun dy _ a => markIfInBounds_spec a (fx + pawnDir sq.color) (fy + dy)) a
  refine ⟨a', h1, m1.congr ?_⟩
  intro tx ty _
  simp only [List.mem_cons, List.mem_singleton, List.not_mem_nil, or_false,
    exists_eq_or_imp, exists_eq_left]
  constructor
  · intro h
    omega
  · intro h
    omega

theorem markKingAttacks_spec (fx fy : Int) (a : AttackMap) :
    ∃ a', markKingAttacks fx fy a = Run.ok a' ∧
      Marks a a' (fun tx ty => |tx - fx| ≤ 1 ∧ |ty - fy| ≤ 1 ∧ ¬ (tx = fx ∧ ty = fy)) := by
  unfold markKingAttacks
  obtain ⟨a', h1, m1⟩ := foldlM_marks
    (fun a (dx : Int) =>
      ([-1, 0, 1] : List Int).foldlM
        (fun a dy =>
          if dx = 0 ∧ dy = 0 then pure a
          else markIfInBounds a (fx + dx) (fy + dy))
        a)
    (fun dx tx ty => ∃ dy ∈ ([-1, 0, 1] : List Int),
      ¬ (dx = 0 ∧ dy = 0) ∧ tx = fx + dx ∧ ty = fy + dy) [-1, 0, 1]
    (fun dx _ a =>
      foldlM_marks
        (fun a (dy : Int) =>
          if dx = 0 ∧ dy = 0 then pure a
          else markIfInBounds a (fx + dx) (fy + dy))
        (fun dy tx ty => ¬ (dx = 0 ∧ dy = 0) ∧ tx = fx + dx ∧ ty = fy + dy) [-1, 0, 1]
        (fun dy _ a => by
          by_cases h : dx = 0 ∧ dy = 0
          · refine ⟨a, by simp [h], (Marks.refl a).congr ?_⟩
            intro tx ty _
            simp [h]
          · obtain ⟨a', h1, m1⟩ := markIfInBounds_spec a (fx + dx) (fy + dy)
            refine ⟨a', by simp only [if_neg h]; exact h1, m1.congr ?_⟩
            intro tx ty _
            simp [h])
        a)
    a
  exact ⟨a', h1, m1.congr (fun tx ty _ => king_offsets_iff fx fy tx ty)⟩

/-- What `markAttacks` marks for the piece standing on `(fx, fy)`. -/
theorem markAttacks_spec (b : Board) {fx fy : Int} {sq : Square}
    (hf : b.read fx fy = Run.ok sq) (a : AttackMap) :
    ∃ a', markAttacks b fx fy a = Run.ok a' ∧ Marks a a' (Attacks b sq fx fy) := by
  have hin : InB fx fy := Grid.inB_of_read hf
  unfold markAttacks
  rw [hf]
  simp only [Run.ok_bind]
  cases hp : sq.piece with
  | Empty =>
    refine ⟨a, rfl, (Marks.refl a).congr ?_⟩
    intro tx ty _
    simp [Attacks, hp]
  | Pawn =>
    obtain ⟨a', h1, m1⟩ := markPawnAttacks_spec b hf a
    refine ⟨a', h1, m1.congr ?_⟩
    intro tx ty _
    simp [Attacks, hp]
  | Knight =>
    obtain ⟨a', h1, m1⟩ := markKnightAttacks_spec fx fy a
    refine ⟨a', h1, m1.congr ?_⟩
    intro tx ty _
    simp [Attacks, hp]
  | King =>
    obtain ⟨a', h1, m1⟩ := markKingAttacks_spec fx fy a
    refine ⟨a', h1, m1.congr ?_⟩
    intro tx ty _
    simp [Attacks, hp]
  | Bishop =>
    obtain ⟨a', h1, m1⟩ := markSlidingAttacks_spec b hin bishopDirs
      (fun d hd => by simp [queenDirs, hd]) a
    refine ⟨a', h1, m1.congr ?_⟩
    intro tx ty _
    simp only [Attacks, hp]
    rw [← and_assoc, (sliding_dirs_iff fx fy tx ty).2.1, and_assoc]
  | Rook =>
    obtain ⟨a', h1, m1⟩ := markSlidingAttacks_spec b hin rookDirs
      (fun d hd => by simp [queenDirs, hd]) a
    refine ⟨a', h1, m1.congr ?_⟩
    intro tx ty _
    simp only [Attacks, hp]
    rw [← and_assoc, (sliding_dirs_iff fx fy tx ty).1, and_assoc]
  | Queen =>
    obtain ⟨a', h1, m1⟩ := markSlidingAttacks_spec b hin queenDirs (fun d hd => hd) a
    refine ⟨a', h1, m1.congr ?_⟩
    intro tx ty _
    simp only [Attacks, hp]
    rw [← and_assoc, (sliding_dirs_iff fx fy tx ty).2.2, and_assoc]

theorem emptyAttackMap_read (tx ty : Int) : emptyAttackMap.read tx ty ≠ Run.ok true := by
  intro h
  have hin := Grid.inB_of_read h
  rw [Grid.read_of_inB _ hin] at h
  cases h

/-- What `buildAttackMap` computes: it returns, and a square is marked exactly
when a piece of the queried side attacks it. -/
theorem buildAttackMap_spec (b : Board) (s : Color) :
    ∃ m, buildAttackMap b s = Run.ok m ∧
      ∀ tx ty, InB tx ty →
        (m.read tx ty = Run.ok true ↔
          ∃ fx fy sq, b.read fx fy = Run.ok sq ∧ sq.piece ≠ Piece.Empty ∧ sq.color = s ∧
            Attacks b sq fx fy tx ty) := by
  unfold buildAttackMap
  obtain ⟨m, h1, m1⟩ := foldlM_marks
    (fun a (x : Int) =>
      coords.foldlM
        (fun a y => do
          let sq ← b.read x y
          if sq.piece ≠ Piece.Empty ∧ sq.color = s then markAttacks b x y a
          else pure a)
        a)
    (fun x tx ty => ∃ y ∈ coords, ∃ sq, b.read x y = Run.ok sq ∧ sq.piece ≠ Piece.Empty ∧
      sq.color = s ∧ Attacks b sq x y tx ty) coords
    (fun x hx a =>
      foldlM_marks
        (fun a (y : Int) => do
          let sq ← b.read x y
          if sq.piece ≠ Piece.Empty ∧ sq.color = s then markAttacks b x y a
          else pure a)
        (fun y tx ty => ∃ sq, b.read x y = Run.ok sq ∧ sq.piece ≠ Piece.Empty ∧
          sq.color = s ∧ Attacks b sq x y tx ty) coords
        (fun y hy a => by
          have hin : InB x y := by
            have := (mem_coords_iff x).mp hx
            have := (mem_coords_iff y).mp hy
            unfold InB; omega
          have hr := Grid.read_of_inB b hin
          by_cases hc : (b.cell x y hin).piece ≠ Piece.Empty ∧ (b.cell x y hin).color = s
          · obtain ⟨a', h1, m1⟩ := markAttacks_spec b hr a
            refine ⟨a', by simp only [hr, Run.ok_bind, if_pos hc]; exact h1, m1.congr ?_⟩
            intro tx ty _
            constructor
            · intro h
              exact ⟨_, hr, hc.1, hc.2, h⟩
            · rintro ⟨sq, hsq, -, -, h⟩
              rw [hr] at hsq
              cases hsq
              exact h
          · refine ⟨a, by simp only [hr, Run.ok_bind, if_neg hc]; rfl, (Marks.refl a).congr ?_⟩
            intro tx ty _
            simp only [false_iff, not_exists, not_and]
            intro sq hsq h2 h3
            rw [hr] at hsq
            cases hsq
            exact absurd ⟨h2, h3⟩ hc)
        a)
    emptyAttackMap
  refine ⟨m, h1, ?_⟩
  intro tx ty ht
  rw [m1 tx ty ht]
  constructor
  · rintro (h | ⟨x, -, y, -, sq, h⟩)
    · exact absurd h (emptyAttackMap_read tx ty)
    · exact ⟨x, y, sq, h⟩
  · rintro ⟨x, y, sq, hsq, h⟩
    right
    have hin := Grid.inB_of_read hsq
    unfold InB at hin
    exact ⟨x, (mem_coords_iff x).mpr (by omega), y, (mem_coords_iff y).mpr (by omega),
      sq, hsq, h⟩

/-! ## Check detection -/

theorem isEmptyAt_iff (b : Board) {x y : Int} {t : Square} (ht : b.read x y = Run.ok t) :
    IsEmptyAt b x y ↔ t.piece = Piece.Empty := by
  unfold IsEmptyAt
  constructor
  · rintro ⟨sq, h1, h2⟩
    rw [ht] at h1
    cases h1
    exact h2
  · intro h
    exact ⟨t, ht, h⟩

theorem isKingOf_iff (b : Board) {x y : Int} {t : Square} (ht : b.read x y = Run.ok t)
    (c : Color) : IsKingOf b c x y ↔ t.piece = Piece.King ∧ t.color = c := by
  unfold IsKingOf
  constructor
  · rintro ⟨sq, h1, h2⟩
    rw [ht] at h1
    cases h1
    exact h2
  · intro h
    exact ⟨t, ht, h⟩

theorem findKingInRank_spec (b : Board) (c : Color) (x : Int) (hx : 0 ≤ x ∧ x < 8) :
    ∀ ys : List Int, (∀ y ∈ ys, 0 ≤ y ∧ y < 8) →
      (∃ y ∈ ys, findKingInRank b c x ys = Run.ok (some (x, y)) ∧ IsKingOf b c x y) ∨
      (findKingInRank b c x ys = Run.ok none ∧ ∀ y ∈ ys, ¬ IsKingOf b c x y) := by
  intro ys
  induction ys with
  | nil =>
    intro _
    right
    exact ⟨rfl, by simp⟩
  | cons y ys ih =>
    intro hys
    have hy := hys y (List.mem_cons_self y ys)
    have hin : InB x y := by unfold InB; omega
    have hr := Grid.read_of_inB b hin
    by_cases hk : (b.cell x y hin).piece = Piece.King ∧ (b.cell x y hin).color = c
    · left
      refine ⟨y, List.mem_cons_self y ys, ?_, (isKingOf_iff b hr c).mpr hk⟩
      simp only [findKingInRank, hr, Run.ok_bind, if_pos hk, Run.pure_eq]
    · have hstep : findKingInRank b c x (y :: ys) = findKingInRank b c x ys := by
        simp only [findKingInRank, hr, Run.ok_bind, if_neg hk]
      rw [hstep]
      rcases ih (fun y' h' => hys y' (List.mem_cons_of_mem y h')) with ⟨y', h1, h2, h3⟩ | ⟨h1, h2⟩
      · left
        exact ⟨y', List.mem_cons_of_mem y h1, h2, h3⟩
      · right
        refine ⟨h1, ?_⟩
        intro y' hy'
        rcases List.mem_cons.mp hy' with rfl | h'
        · exact fun hh => hk ((isKingOf_iff b hr c).mp hh)
        · exact h2 y' h'

theorem findKingFrom_spec (b : Board) (c : Color) :
    ∀ xs : List Int, (∀ x ∈ xs, 0 ≤ x ∧ x < 8) →
      (∃ p, findKingFrom b c xs = Run.ok p ∧ IsKingOf b c p.1 p.2) ∨
      (findKingFrom b c xs = Run.fault Fault.kingNotFound ∧
        ∀ x ∈ xs, ∀ y ∈ coords, ¬ IsKingOf b c x y) := by
  intro xs
  induction xs with
  | nil =>
    intro _
    right
    exact ⟨rfl, by simp⟩
  | cons x xs ih =>
    intro hxs
    have hx := hxs x (List.mem_cons_self x xs)
    rcases findKingInRank_spec b c x hx coords (fun y hy => (mem_coords_iff y).mp hy) with
      ⟨y, -, h2, h3⟩ | ⟨h1, h2⟩
    · left
      exact ⟨(x, y), by simp only [findKingFrom, h2, Run.ok_bind, Run.pure_eq], h3⟩
    · have hstep : findKingFrom b c (x :: xs) = findKingFrom b c xs := by
        simp only [findKingFrom, h1, Run.ok_bind]
      rw [hstep]
      rcases ih (fun x' h' => hxs x' (List.mem_cons_of_mem x h')) with ⟨p, h3, h4⟩ | ⟨h3, h4⟩
      · left
        exact ⟨p, h3, h4⟩
      · right
        refine ⟨h3, ?_⟩
        intro x' hx' y hy
        rcases List.mem_cons.mp hx' with rfl | h'
        · exact h2 y hy
        · exact h4 x' h' y hy

/-- The scan of `findKing` returns a square holding a king of the requested
side, or panics when the board holds none. -/
theorem findKing_spec (b : Board) (c : Color) :
    (∃ p, findKing b c = Run.ok p ∧ IsKingOf b c p.1 p.2) ∨
    (findKing b c = Run.fault Fault.kingNotFound ∧ ∀ x y, ¬ IsKingOf b c x y) := by
  unfold findKing
  rcases findKingFrom_spec b c coords (fun x hx => (mem_coords_iff x).mp hx) with h | ⟨h1, h2⟩
  · exact Or.inl h
  · right
    refine ⟨h1, ?_⟩
    intro x y hk
    obtain ⟨sq, hsq, hsq'⟩ := hk
    have hin := Grid.inB_of_read hsq
    unfold InB at hin
    exact h2 x ((mem_coords_iff x).mpr (by omega)) y ((mem_coords_iff y).mpr (by omega))
      ⟨sq, hsq, hsq'⟩

theorem enemy_eq (c : Color) :
    (if c = Color.White then Color.Black else Color.White) = c.other := by
  cases c <;> rfl

/-- When a king of side `c` stands on the board, `isKingInCheck` returns
whether the square where `findKing` finds it is marked in the opposing side's
attack map. -/
theorem isKingInCheck_spec (b : Board) (c : Color) {kx ky : Int} (hk : IsKingOf b c kx ky) :
    ∃ p m v, findKing b c = Run.ok p ∧ IsKingOf b c p.1 p.2 ∧
      buildAttackMap b c.other = Run.ok m ∧ m.read p.1 p.2 = Run.ok v ∧
      isKingInCheck b c = Run.ok v := by
  rcases findKing_spec b c with ⟨p, h1, h2⟩ | ⟨-, h2⟩
  swap
  · exact absurd hk (h2 kx ky)
  obtain ⟨m, hm, -⟩ := buildAttackMap_spec b c.other
  have hin : InB p.1 p.2 := by
    obtain ⟨sq, hsq, -⟩ := h2
    exact Grid.inB_of_read hsq
  refine ⟨p, m, m.cell p.1 p.2 hin, h1, h2, hm, Grid.read_of_inB m hin, ?_⟩
  simp only [isKingInCheck, h1, Run.ok_bind, enemy_eq, hm]
  exact Grid.read_of_inB m hin

/-! ## Per-kind legality predicates -/

/-- What `validKnightMove` computes when the origin square exists. -/
theorem validKnightMove_spec (b : Board) (fx fy tx ty : Int) (f : Square)
    (hf : b.read fx fy = Run.ok f) :
    ∃ v, validKnightMove b fx fy tx ty = Run.ok v ∧
      (v = true ↔
        InB tx ty ∧ ((|fx - tx| = 2 ∧ |fy - ty| = 1) ∨ (|fx - tx| = 1 ∧ |fy - ty| = 2)) ∧
          ¬ OwnedBy b tx ty f.color) := by
  by_cases ht : InB tx ty
  swap
  · refine ⟨false, ?_, ?_⟩
    · simp [validKnightMove, (inBounds_false_iff tx ty).mpr ht]
    · simp [ht]
  have hib : inBounds tx ty = true := (inBounds_iff tx ty).mpr ht
  have htr := Grid.read_of_inB b ht
  have hsc := sameColor_ok b hf htr
  by_cases hshape : (|fx - tx| = 2 ∧ |fy - ty| = 1) ∨ (|fx - tx| = 1 ∧ |fy - ty| = 2)
  swap
  · refine ⟨false, ?_, ?_⟩
    · simp only [validKnightMove, hib, absDiff_eq]
      simp [hshape]
    · simp [hshape]
  refine ⟨!decide ((b.cell tx ty ht).piece ≠ Piece.Empty ∧ f.color = (b.cell tx ty ht).color),
    ?_, ?_⟩
  · simp only [validKnightMove, hib, absDiff_eq]
    simp only [Bool.not_true, Bool.false_eq_true, if_false, hshape, not_true_eq_false, hsc,
      Run.ok_bind, Run.pure_eq]
  · rw [ownedBy_iff b htr f.color]
    simp only [ht, hshape, true_and, Bool.not_eq_true', decide_eq_false_iff_not]
    constructor
    · rintro h ⟨h1, h2⟩
      exact h ⟨h1, h2.symm⟩
    · rintro h ⟨h1, h2⟩
      exact h ⟨h1, h2.symm⟩

/-- What `validPawnMove` computes when the origin square exists. -/
theorem validPawnMove_spec (b : Board) (fx fy tx ty : Int) (f : Square)
    (hf : b.read fx fy = Run.ok f) :
    ∃ v, validPawnMove b fx fy tx ty = Run.ok v ∧
      (v = true ↔
        InB tx ty ∧
          ((ty = fy ∧ tx = fx + pawnDir f.color ∧ IsEmptyAt b tx ty) ∨
           (ty = fy ∧ fx = pawnStart f.color ∧ tx = fx + 2 * pawnDir f.color ∧
              IsEmptyAt b (fx + pawnDir f.color) fy ∧ IsEmptyAt b tx ty) ∨
           (tx = fx + pawnDir f.color ∧ (ty = fy + 1 ∨ ty = fy - 1) ∧
              OwnedBy b tx ty f.color.other))) := by
  have hfin : InB fx fy := Grid.inB_of_read hf
  by_cases ht : InB tx ty
  swap
  · refine ⟨false, ?_, ?_⟩
    · simp [validPawnMove, (inBounds_false_iff tx ty).mpr ht]
    · simp [ht]
  have hib : inBounds tx ty = true := (inBounds_iff tx ty).mpr ht
  obtain ⟨t, htr⟩ : ∃ t, b.read tx ty = Run.ok t := ⟨_, Grid.read_of_inB b ht⟩
  have hdir : (if f.color = Color.Black then (-1 : Int) else 1) = pawnDir f.color := by
    cases f.color <;> simp [pawnDir]
  have hstart : (if f.color = Color.Black then (6 : Int) else 1) = pawnStart f.color := by
    cases f.color <;> simp [pawnStart]
  have hother : t.color ≠ f.color ↔ t.color = f.color.other := by
    cases t.color <;> cases f.color <;> simp [Color.other]
  rw [isEmptyAt_iff b htr, ownedBy_iff b htr]
  simp only [validPawnMove, hib, hf, Run.ok_bind, hdir, hstart, Bool.not_true,
    Bool.false_eq_true, if_false, Run.pure_eq]
  by_cases hsame : fy = ty
  · -- same file: only the advance block can succeed
    have hnd : ¬ (tx = fx + pawnDir f.color ∧ (ty = fy + 1 ∨ ty = fy - 1)) := by omega
    simp only [if_pos hsame, if_neg hnd, htr, Run.ok_bind]
    by_cases hemp : t.piece = Piece.Empty
    · simp only [if_pos hemp]
      by_cases h1 : tx = fx + pawnDir f.color
      · refine ⟨true, ?_, ?_⟩
        · simp only [if_pos h1, Run.ok_bind, if_true]
        · simp only [true_iff]
          exact ⟨ht, Or.inl ⟨hsame.symm, h1, hemp⟩⟩
      · simp only [if_neg h1]
        by_cases h2 : fx = pawnStart f.color ∧ tx = fx + 2 * pawnDir f.color
        · have hmid : InB (fx + pawnDir f.color) fy := by
            have : pawnStart f.color + pawnDir f.color = 2 ∨
                pawnStart f.color + pawnDir f.color = 5 := by
              cases f.color <;> simp [pawnDir, pawnStart]
            unfold InB at hfin ⊢
            omega
          obtain ⟨m, hmr⟩ : ∃ m, b.read (fx + pawnDir f.color) fy = Run.ok m :=
            ⟨_, Grid.read_of_inB b hmid⟩
          rw [isEmptyAt_iff b hmr]
          refine ⟨decide (m.piece = Piece.Empty), ?_, ?_⟩
          · simp only [if_pos h2, hmr, Run.ok_bind]
            by_cases hm : m.piece = Piece.Empty <;> simp [hm]
          · simp only [decide_eq_true_eq]
            constructor
            · intro hm
              exact ⟨ht, Or.inr (Or.inl ⟨hsame.symm, h2.1, h2.2, hm, hemp⟩)⟩
            · rintro ⟨-, h | h | h⟩
              · exact absurd h.2.1 h1
              · exact h.2.2.2.1
              · exact absurd h.1 h1
        · refine ⟨false, ?_, ?_⟩
          · simp only [if_neg h2, Run.ok_bind]
            simp
          · simp only [Bool.false_eq_true, false_iff]
            rintro ⟨-, h | h | h⟩
            · exact h1 h.2.1
            · exact h2 ⟨h.2.1, h.2.2.1⟩
            · exact h1 h.1
    · refine ⟨false, ?_, ?_⟩
      · simp only [if_neg hemp, Run.ok_bind]
        simp
      · simp only [Bool.false_eq_true, false_iff]
        rintro ⟨-, h | h | h⟩
        · exact hemp h.2.2
        · exact hemp h.2.2.2.2
        · exact hnd ⟨h.1, h.2.1⟩
  · simp only [if_neg hsame, Run.ok_bind, Bool.false_eq_true, if_false]
    by_cases hdiag : tx = fx + pawnDir f.color ∧ (ty = fy + 1 ∨ ty = fy - 1)
    · simp only [if_pos hdiag, htr, Run.ok_bind]
      by_cases hemp : t.piece = Piece.Empty
      · refine ⟨false, ?_, ?_⟩
        · simp [hemp]
        · simp only [Bool.false_eq_true, false_iff]
          rintro ⟨-, h | h | h⟩
          · exact hsame h.1.symm
          · exact hsame h.1.symm
          · exact h.2.2.1 hemp
      · refine ⟨decide (t.color ≠ f.color), ?_, ?_⟩
        · simp [hemp]
        · simp only [decide_eq_true_eq, hother]
          constructor
          · intro h
            exact ⟨ht, Or.inr (Or.inr ⟨hdiag.1, hdiag.2, hemp, h⟩)⟩
          · rintro ⟨-, h | h | h⟩
            · exact absurd h.1.symm hsame
            · exact absurd h.1.symm hsame
            · exact h.2.2.2
    · refine ⟨false, ?_, ?_⟩
      · simp only [if_neg hdiag]
      · simp only [Bool.false_eq_true, false_iff]
        rintro ⟨-, h | h | h⟩
        · exact hsame h.1.symm
        · exact hsame h.1.symm
        · exact hdiag ⟨h.1, h.2.1⟩

/-- After a king of side `f.color` is moved from `(fx, fy)` to an in-bounds
square, the destination holds a king of that side. -/
theorem movePiece_king (b : Board) {fx fy tx ty : Int} {f : Square} {next : Board}
    (hf : b.read fx fy = Run.ok f) (hk : f.piece = Piece.King) (ht : InB tx ty)
    (hmove : movePiece b fx fy tx ty = Run.ok next) :
    IsKingOf next f.color tx ty := by
  obtain ⟨r, hr, hread⟩ := movePiece_ok b (Grid.inB_of_read hf) ht
  rw [hmove] at hr
  cases hr
  refine ⟨f, ?_, hk, rfl⟩
  rw [hread, if_pos ⟨rfl, rfl⟩, hf]

/-- What `validKingMove` computes when the origin holds a king: in particular
it always returns. -/
theorem validKingMove_spec (b : Board) (fx fy tx ty : Int) (f : Square)
    (hf : b.read fx fy = Run.ok f) (hk : f.piece = Piece.King) :
    ∃ v, validKingMove b fx fy tx ty = Run.ok v ∧
      (v = true ↔
        InB tx ty ∧ |fx - tx| ≤ 1 ∧ |fy - ty| ≤ 1 ∧ ¬ OwnedBy b tx ty f.color ∧
          ∃ next, movePiece b fx fy tx ty = Run.ok next ∧
            isKingInCheck next f.color = Run.ok false) := by
  have hfin : InB fx fy := Grid.inB_of_read hf
  by_cases ht : InB tx ty
  swap
  · refine ⟨false, ?_, ?_⟩
    · simp [validKingMove, (inBounds_false_iff tx ty).mpr ht]
    · simp [ht]
  have hib : inBounds tx ty = true := (inBounds_iff tx ty).mpr ht
  by_cases hfar : |fx - tx| > 1 ∨ |fy - ty| > 1
  · refine ⟨false, ?_, ?_⟩
    · simp only [validKingMove, hib, absDiff_eq]
      simp [hfar]
    · simp only [Bool.false_eq_true, false_iff]
      rintro ⟨-, h1, h2, -⟩
      omega
  obtain ⟨t, htr⟩ : ∃ t, b.read tx ty = Run.ok t := ⟨_, Grid.read_of_inB b ht⟩
  have hsc := sameColor_ok b hf htr
  rw [ownedBy_iff b htr]
  by_cases hsame : t.piece ≠ Piece.Empty ∧ f.color = t.color
  · refine ⟨false, ?_, ?_⟩
    · simp only [validKingMove, hib, absDiff_eq]
      simp [hfar, hsc, hsame]
    · simp only [Bool.false_eq_true, false_iff]
      rintro ⟨-, -, -, h, -⟩
      exact h ⟨hsame.1, hsame.2.symm⟩
  obtain ⟨next, hmove, -⟩ := movePiece_ok b hfin ht
  obtain ⟨p, m, v, -, -, -, -, hcheck⟩ :=
    isKingInCheck_spec next f.color (movePiece_king b hf hk ht hmove)
  refine ⟨!v, ?_, ?_⟩
  · simp only [validKingMove, hib, absDiff_eq]
    simp only [Bool.not_true, Bool.false_eq_true, if_false, hfar, hsc, hsame, decide_False,
      Run.ok_bind, hmove, hf, hcheck, Run.pure_eq]
    cases v <;> rfl
  · constructor
    · intro hv
      refine ⟨ht, by omega, by omega, fun h => hsame ⟨h.1, h.2.symm⟩, next, hmove, ?_⟩
      rw [hcheck]
      cases v
      · rfl
      · cases hv
    · rintro ⟨-, -, -, -, n', hn', hc'⟩
      rw [hmove] at hn'
      cases hn'
      rw [hcheck] at hc'
      cases hc'
      rfl

/-- Dispatch of `isValidMove` on the kind of the piece standing on the origin. -/
theorem isValidMove_eq (b : Board) (fx fy tx ty : Int) (f : Square)
    (hf : b.read fx fy = Run.ok f) :
    isValidMove b fx fy tx ty =
      match f.piece with
      | Piece.Empty => Run.ok false
      | Piece.Pawn => validPawnMove b fx fy tx ty
      | Piece.Knight => validKnightMove b fx fy tx ty
      | Piece.Bishop => validBishopMove b fx fy tx ty
      | Piece.Rook => validRookMove b fx fy tx ty
      | Piece.Queen => validQueenMove b fx fy tx ty
      | Piece.King => validKingMove b fx fy tx ty := by
  unfold isValidMove
  rw [hf]
  rfl

/-- Whenever the origin is in bounds, `isValidMove` returns a boolean. -/
theorem isValidMove_total (b : Board) {fx fy : Int} (tx ty : Int) (hfin : InB fx fy) :
    ∃ v, isValidMove b fx fy tx ty = Run.ok v := by
  have hf := Grid.read_of_inB b hfin
  rw [isValidMove_eq b fx fy tx ty _ hf]
  cases hp : (b.cell fx fy hfin).piece with
  | Empty => exact ⟨false, rfl⟩
  | Pawn =>
    obtain ⟨v, h, -⟩ := validPawnMove_spec b fx fy tx ty _ hf
    exact ⟨v, h⟩
  | Knight =>
    obtain ⟨v, h, -⟩ := validKnightMove_spec b fx fy tx ty _ hf
    exact ⟨v, h⟩
  | Bishop =>
    obtain ⟨v, h, -⟩ := validBishopMove_spec b fx fy tx ty _ hf (by rw [hp]; simp)
    exact ⟨v, h⟩
  | Rook =>
    obtain ⟨v, h, -⟩ := validRookMove_spec b fx fy tx ty _ hf (by rw [hp]; simp)
    exact ⟨v, h⟩
  | Queen =>
    obtain ⟨v, h, -⟩ := validQueenMove_spec b fx fy tx ty _ hf (by rw [hp]; simp)
    exact ⟨v, h⟩
  | King =>
    obtain ⟨v, h, -⟩ := validKingMove_spec b fx fy tx ty _ hf hp
    exact ⟨v, h⟩

theorem Run.bind_eq_ok {α β : Type} {r : Run α} {k : α → Run β} {v : β}
    (h : (r >>= k) = Run.ok v) : ∃ a, r = Run.ok a ∧ k a = Run.ok v := by
  cases r with
  | ok a => exact ⟨a, rfl, h⟩
  | fault f => cases h

theorem total_of_spec {r : Run Bool} (h : ∃ v, r = Run.ok v) :
    r = Run.ok true ∨ r = Run.ok false := by
  obtain ⟨v, hv⟩ := h
  cases v
  · exact Or.inr hv
  · exact Or.inl hv

theorem iff_of_spec {r : Run Bool} {P : Prop} (h : ∃ v, r = Run.ok v ∧ (v = true ↔ P)) :
    (r = Run.ok true ∨ r = Run.ok false) ∧ (r = Run.ok true ↔ P) := by
  obtain ⟨v, hv, hiff⟩ := h
  refine ⟨total_of_spec ⟨v, hv⟩, ?_⟩
  rw [hv, ← hiff]
  constructor
  · intro h
    cases h
    rfl
  · intro h
    rw [h]

/-- A square held by a piece is never attacked by that piece itself. -/
theorem Attacks.ne {b : Board} {sq : Square} {fx fy tx ty : Int}
    (h : Attacks b sq fx fy tx ty) : ¬ (fx = tx ∧ fy = ty) := by
  unfold Attacks at h
  rintro ⟨rfl, rfl⟩
  cases hp : sq.piece <;> rw [hp] at h <;> simp at h
  have : pawnDir sq.color = 1 ∨ pawnDir sq.color = -1 := by
    cases sq.color <;> simp [pawnDir]
  omega

/-- The squares inspected by `PathClear` never include the destination. -/
theorem pathClear_congr {b b' : Board} {fx fy tx ty : Int}
    (hagree : ∀ x y, ¬ (x = tx ∧ y = ty) → b'.read x y = b.read x y) :
    PathClear b' fx fy tx ty ↔ PathClear b fx fy tx ty := by
  have hstep : ∀ j : Int, 0 < j → j < max |tx - fx| |ty - fy| →
      ¬ (fx + j * Int.sign (tx - fx) = tx ∧ fy + j * Int.sign (ty - fy) = ty) := by
    intro j h0 h1
    obtain ⟨m, hm, -, m1, m2, m3, m4, m5⟩ := dist_cases (tx - fx) (ty - fy)
    rw [hm] at h1
    rcases sign_cases (tx - fx) with ⟨s1, s2⟩ | ⟨s1, s2⟩ | ⟨s1, s2⟩ <;>
    rcases sign_cases (ty - fy) with ⟨s3, s4⟩ | ⟨s3, s4⟩ | ⟨s3, s4⟩ <;>
    rw [s2, s4] <;>
    simp only [mul_one, mul_zero, mul_neg, add_zero] <;>
    omega
  unfold PathClear IsEmptyAt
  constructor
  · intro h j h0 h1
    rw [← hagree _ _ (hstep j h0 h1)]
    exact h j h0 h1
  · intro h j h0 h1
    rw [hagree _ _ (hstep j h0 h1)]
    exact h j h0 h1

theorem attacks_congr {b b' : Board} {sq : Square} {fx fy tx ty : Int}
    (hagree : ∀ x y, ¬ (x = tx ∧ y = ty) → b'.read x y = b.read x y) :
    Attacks b' sq fx fy tx ty ↔ Attacks b sq fx fy tx ty := by
  unfold Attacks
  cases sq.piece <;> simp only [pathClear_congr hagree]

/-- A king-uniqueness condition stated on array indices implies the one stated
on run-time coordinates. -/
theorem onlyKing_of_cells (b : Board) (s : Color) (fx fy : Int)
    (h : ∀ i j : Fin 8, (b i j).piece = Piece.King → (b i j).color = s →
      ((i : Nat) : Int) = fx ∧ ((j : Nat) : Int) = fy) :
    ∀ x y, IsKingOf b s x y → x = fx ∧ y = fy := by
  rintro x y ⟨sq, hsq, hp, hc⟩
  have hin := Grid.inB_of_read hsq
  rw [Grid.read_of_inB b hin] at hsq
  cases hsq
  have := h _ _ hp hc
  unfold InB at hin
  simp only [Int.toNat_of_nonneg hin.1, Int.toNat_of_nonneg hin.2.2.1] at this
  exact this

/-- When the only king of side `s` stands on the origin, `findKing` locates it
on the destination after the move. -/
theorem findKing_after_move (b : Board) (s : Color) {fx fy tx ty : Int} {next : Board}
    (hking : b.read fx fy = Run.ok ⟨Piece.King, s⟩)
    (honly : ∀ x y, IsKingOf b s x y → x = fx ∧ y = fy)
    (hmove : movePiece b fx fy tx ty = Run.ok next) (ht : InB tx ty) :
    findKing next s = Run.ok (tx, ty) := by
  obtain ⟨r, hr, hread⟩ := movePiece_ok b (Grid.inB_of_read hking) ht
  rw [hmove] at hr
  cases hr
  have hk := movePiece_king b hking rfl ht hmove
  obtain ⟨p, -, -, hp, hp', -, -, -⟩ := isKingInCheck_spec next s hk
  have hpt : p.1 = tx ∧ p.2 = ty := by
    by_contra hne
    obtain ⟨sq, hsq, h1, h2⟩ := hp'
    rw [hread, if_neg hne] at hsq
    by_cases hpf : p.1 = fx ∧ p.2 = fy
    · rw [if_pos hpf] at hsq
      cases hsq
      cases h1
    · rw [if_neg hpf] at hsq
      exact hpf (honly p.1 p.2 ⟨sq, hsq, h1, h2⟩)
  rw [hp]
  obtain ⟨p1, p2⟩ := p
  simp only at hpt
  rw [hpt.1, hpt.2]

theorem isValidMove_of_dest_out (b : Board) (fromX fromY toX toY : Int)
    (hfrom : InB fromX fromY) (hto : ¬ InB toX toY) :
    isValidMove b fromX fromY toX toY = Run.ok false := by
  have hf := Grid.read_of_inB b hfrom
  have hib := (inBounds_false_iff toX toY).mpr hto
  rw [isValidMove_eq b fromX fromY toX toY _ hf]
  cases (b.cell fromX fromY hfrom).piece <;>
    simp [validPawnMove, validKnightMove, validBishopMove, validRookMove, validQueenMove,
      validKingMove, hib]

/-! ## Further lemmas: termination, lone pieces, reachable boards -/

theorem false_of_spec {r : Run Bool} {P : Prop} (h : ∃ v, r = Run.ok v ∧ (v = true ↔ P))
    (hn : ¬ P) : r = Run.ok false := by
  obtain ⟨v, hv, hiff⟩ := h
  cases v
  · exact hv
  · exact absurd (hiff.mp rfl) hn

theorem sameColor_false_iff (b : Board) {fx fy tx ty : Int} {f : Square}
    (hf : b.read fx fy = Run.ok f) (ht : InB tx ty) :
    sameColor b fx fy tx ty = Run.ok false ↔ ¬ OwnedBy b tx ty f.color := by
  have htr := Grid.read_of_inB b ht
  rw [sameColor_ok b hf htr, ownedBy_iff b htr]
  constructor
  · intro h hown
    have : decide ((b.cell tx ty ht).piece ≠ Piece.Empty ∧ f.color = (b.cell tx ty ht).color)
        = false := by
      cases h' : decide ((b.cell tx ty ht).piece ≠ Piece.Empty ∧
        f.color = (b.cell tx ty ht).color)
      · rfl
      · rw [h'] at h
        cases h
    exact (decide_eq_false_iff_not.mp this) ⟨hown.1, hown.2.symm⟩
  · intro h
    have : ¬ ((b.cell tx ty ht).piece ≠ Piece.Empty ∧ f.color = (b.cell tx ty ht).color) :=
      fun hh => h ⟨hh.1, hh.2.symm⟩
    rw [decide_eq_false this]

/-- A non-empty origin is held by its own side, so a move onto the origin is a
move onto a same-side piece. -/
theorem ownedBy_self (b : Board) {fx fy : Int} {f : Square} (hf : b.read fx fy = Run.ok f)
    (hp : f.piece ≠ Piece.Empty) : OwnedBy b fx fy f.color :=
  ⟨f, hf, hp, rfl⟩

/-- The loop of `validRookMove` returns within a budget of seven iterations
whenever `validRookMove` reaches it from a non-empty origin. -/
theorem rookLoop_terminates (b : Board) {fx fy tx ty : Int} {f : Square}
    (hf : b.read fx fy = Run.ok f) (hp : f.piece ≠ Piece.Empty) (ht : InB tx ty)
    (hline : ¬ (fx ≠ tx ∧ fy ≠ ty)) (hsame : sameColor b fx fy tx ty = Run.ok false) :
    ∃ v, rookLoop b tx ty
        (if fx < tx then 1 else if fx > tx then -1 else 0)
        (if fy < ty then 1 else if fy > ty then -1 else 0) 7
        (fx + (if fx < tx then 1 else if fx > tx then -1 else 0))
        (fy + (if fy < ty then 1 else if fy > ty then -1 else 0)) = Run.ok v := by
  have hfin := Grid.inB_of_read hf
  have hown := (sameColor_false_iff b hf ht).mp hsame
  have hne : ¬ (tx = fx ∧ ty = fy) := by
    rintro ⟨rfl, rfl⟩
    exact hown (ownedBy_self b hf hp)
  have hal : Aligned fx fy tx ty := by
    unfold Aligned
    by_cases h : fx = tx
    · exact Or.inl h.symm
    · right; left
      by_contra h'
      exact hline ⟨h, fun e => h' e.symm⟩
  obtain ⟨n, hn7, -, hx, hy, hin⟩ := aligned_steps hfin ht hal hne
  have hd : Int.sign (tx - fx) ≠ 0 ∨ Int.sign (ty - fy) ≠ 0 := by
    by_contra hcon
    push_neg at hcon
    rw [Int.sign_eq_zero_iff_zero, Int.sign_eq_zero_iff_zero] at hcon
    exact hne ⟨by omega, by omega⟩
  obtain ⟨v, hv, -⟩ := rookLoop_spec b tx ty _ _ hd n 7
    (fx + Int.sign (tx - fx)) (fy + Int.sign (ty - fy)) hn7 hx hy hin
  rw [rookStep_eq, rookStep_eq]
  exact ⟨v, hv⟩

/-- The loop of `validBishopMove` returns within a budget of seven iterations
whenever `validBishopMove` reaches it from a non-empty origin. -/
theorem bishopLoop_terminates (b : Board) {fx fy tx ty : Int} {f : Square}
    (hf : b.read fx fy = Run.ok f) (hp : f.piece ≠ Piece.Empty) (ht : InB tx ty)
    (hdiag : absDiff fx tx = absDiff fy ty) (hsame : sameColor b fx fy tx ty = Run.ok false) :
    ∃ v, bishopLoop b tx ty
        (if tx < fx then -1 else 1) (if ty < fy then -1 else 1) 7
        (fx + (if tx < fx then -1 else 1)) (fy + (if ty < fy then -1 else 1)) = Run.ok v := by
  have hfin := Grid.inB_of_read hf
  have hown := (sameColor_false_iff b hf ht).mp hsame
  rw [absDiff_eq, absDiff_eq] at hdiag
  have hne : ¬ (tx = fx ∧ ty = fy) := by
    rintro ⟨rfl, rfl⟩
    exact hown (ownedBy_self b hf hp)
  have hxy : tx ≠ fx ∧ ty ≠ fy := by
    have a1 := abs_cases (fx - tx)
    have a2 := abs_cases (fy - ty)
    constructor <;> intro e <;> apply hne <;> omega
  have hal : Aligned fx fy tx ty := by
    unfold Aligned
    right; right
    rw [abs_sub_comm tx fx, abs_sub_comm ty fy]
    exact hdiag
  obtain ⟨n, hn7, -, hx, hy, hin⟩ := aligned_steps hfin ht hal hne
  have hd : Int.sign (tx - fx) ≠ 0 ∧ Int.sign (ty - fy) ≠ 0 := by
    rw [Ne, Ne, Int.sign_eq_zero_iff_zero, Int.sign_eq_zero_iff_zero]
    omega
  obtain ⟨v, hv, -⟩ := bishopLoop_spec b tx ty _ _ hd n 7
    (fx + Int.sign (tx - fx)) (fy + Int.sign (ty - fy)) hn7 hx hy hin
  rw [bishopStep_eq fx tx hxy.1, bishopStep_eq fy ty hxy.2]
  exact ⟨v, hv⟩

/-- Reading the all-false attack map never yields `true`, so what a marking
routine run on it marks is exactly what it adds. -/
theorem marks_from_empty {m : AttackMap} {P : Int → Int → Prop}
    (h : Marks emptyAttackMap m P) {tx ty : Int} (ht : InB tx ty) :
    m.read tx ty = Run.ok true ↔ P tx ty := by
  rw [h tx ty ht]
  constructor
  · rintro (h | h)
    · exact absurd h (emptyAttackMap_read tx ty)
    · exact h
  · exact Or.inr

theorem Grid.read_fin {α : Type} (g : Grid α) (i j : Fin 8) :
    g.read ((i : Nat) : Int) ((j : Nat) : Int) = Run.ok (g i j) := by
  have hin : InB ((i : Nat) : Int) ((j : Nat) : Int) := by
    unfold InB
    omega
  rw [Grid.read_of_inB g hin]
  unfold Grid.cell
  simp

theorem read_false_of_ne {m : AttackMap} {x y : Int} (hin : InB x y)
    (h : m.read x y ≠ Run.ok true) : m.read x y = Run.ok false := by
  rw [Grid.read_of_inB m hin] at h ⊢
  cases hv : m.cell x y hin
  · rfl
  · rw [hv] at h
    exact absurd rfl h

/-- An occupancy condition stated on array indices implies the one stated on
run-time coordinates. -/
theorem ownedOnly_of_cells (b : Board) (s : Color) (fx fy : Int)
    (h : ∀ i j : Fin 8, (b i j).piece ≠ Piece.Empty → (b i j).color = s →
      ((i : Nat) : Int) = fx ∧ ((j : Nat) : Int) = fy) :
    ∀ x y, OwnedBy b x y s → x = fx ∧ y = fy := by
  rintro x y ⟨sq, hsq, hp, hc⟩
  have hin := Grid.inB_of_read hsq
  rw [Grid.read_of_inB b hin] at hsq
  cases hsq
  have := h _ _ hp hc
  unfold InB at hin
  simp only [Int.toNat_of_nonneg hin.1, Int.toNat_of_nonneg hin.2.2.1] at this
  exact this

/-- An emptiness condition stated on array indices implies the one stated on
run-time coordinates. -/
theorem emptyElsewhere_of_cells (b : Board) (fx fy : Int)
    (h : ∀ i j : Fin 8, ¬ (((i : Nat) : Int) = fx ∧ ((j : Nat) : Int) = fy) →
      (b i j).piece = Piece.Empty) :
    ∀ x y, InB x y → ¬ (x = fx ∧ y = fy) → IsEmptyAt b x y := by
  intro x y hin hne
  refine ⟨_, Grid.read_of_inB b hin, ?_⟩
  apply h
  unfold InB at hin
  simp only [Int.toNat_of_nonneg hin.1, Int.toNat_of_nonneg hin.2.2.1]
  exact hne

/-- With every square other than the origin empty, nothing blocks a line
leaving the origin. -/
theorem pathClear_of_lone (b : Board) {fx fy tx ty : Int} (hf : InB fx fy) (ht : InB tx ty)
    (hlone : ∀ x y, InB x y → ¬ (x = fx ∧ y = fy) → IsEmptyAt b x y)
    (hal : Aligned fx fy tx ty) (hne : ¬ (tx = fx ∧ ty = fy)) :
    PathClear b fx fy tx ty := by
  obtain ⟨n, -, hmax, -, -, hin⟩ := aligned_steps hf ht hal hne
  rw [pathClear_iff_steps b fx fy tx ty n hmax]
  intro j hj
  refine hlone _ _ (hin j hj) ?_
  rcases sign_cases (tx - fx) with ⟨s1, s2⟩ | ⟨s1, s2⟩ | ⟨s1, s2⟩ <;>
  rcases sign_cases (ty - fy) with ⟨s3, s4⟩ | ⟨s3, s4⟩ | ⟨s3, s4⟩ <;>
  rw [s2, s4] <;>
  simp only [mul_one, mul_zero, mul_neg, add_zero] <;>
  omega

/-- The number of squares sharing a rank or a file with a given square, that
square excepted. -/
theorem cross_count :
    ∀ fi fj : Fin 8,
      Grid.count (fun i j => decide ((i = fi ∨ j = fj) ∧ ¬ (i = fi ∧ j = fj))) id = 14 := by
  decide

theorem movePiece_inB {b next : Board} {fx fy tx ty : Int}
    (h : movePiece b fx fy tx ty = Run.ok next) : InB fx fy ∧ InB tx ty := by
  by_cases hf : InB fx fy
  · refine ⟨hf, ?_⟩
    by_contra ht
    obtain ⟨b1, h1, -⟩ := Grid.write_ok b Square.zero hf
    simp only [movePiece, Grid.read_of_inB b hf, h1, Run.ok_bind,
      Grid.write_of_not_inB b1 _ ht] at h
    cases h
  · simp only [movePiece, Grid.read_of_not_inB b hf, Run.fault_bind] at h
    cases h

theorem not_king_of_read (b : Board) (x y : Int) (sq : Square)
    (h : b.read x y = Run.ok sq) (hp : sq.piece ≠ Piece.King) :
    ∀ c : Color, ¬ IsKingOf b c x y := by
  rintro c ⟨sq', h1, h2, -⟩
  rw [h] at h1
  cases h1
  exact hp h2

/-- A move that does not land on a king of side `s` leaves a king of side `s`
on the board. -/
theorem king_survives_move {b next : Board} {s : Color} {fx fy tx ty : Int}
    (hmove : movePiece b fx fy tx ty = Run.ok next)
    (hspare : ¬ IsKingOf b s tx ty)
    (hk : ∃ x y, IsKingOf b s x y) : ∃ x y, IsKingOf next s x y := by
  obtain ⟨hf, ht⟩ := movePiece_inB hmove
  obtain ⟨r, hr, hread⟩ := movePiece_ok b hf ht
  rw [hmove] at hr
  cases hr
  obtain ⟨kx, ky, sq, hsq, hp, hc⟩ := hk
  by_cases hkt : kx = tx ∧ ky = ty
  · obtain ⟨rfl, rfl⟩ := hkt
    exact absurd ⟨sq, hsq, hp, hc⟩ hspare
  · by_cases hkf : kx = fx ∧ ky = fy
    · obtain ⟨rfl, rfl⟩ := hkf
      refine ⟨tx, ty, sq, ?_, hp, hc⟩
      rw [hread, if_pos ⟨rfl, rfl⟩, hsq]
    · refine ⟨kx, ky, sq, ?_, hp, hc⟩
      rw [hread, if_neg hkt, if_neg hkf, hsq]

/-- On a board holding a king of side `s`, neither `findKing` nor
`isKingInCheck` panics. -/
theorem king_found_of_present (b : Board) (s : Color) (hk : ∃ x y, IsKingOf b s x y) :
    (∃ p, findKing b s = Run.ok p) ∧ (∃ v, isKingInCheck b s = Run.ok v) := by
  obtain ⟨x, y, hxy⟩ := hk
  obtain ⟨p, -, v, h1, -, -, -, h2⟩ := isKingInCheck_spec b s hxy
  exact ⟨⟨p, h1⟩, ⟨v, h2⟩⟩

theorem newBoard_has_kings (s : Color) : ∃ x y, IsKingOf NewBoard s x y := by
  cases s
  · exact ⟨0, 4, ⟨Piece.King, Color.White⟩, by decide, rfl, rfl⟩
  · exact ⟨7, 4, ⟨Piece.King, Color.Black⟩, by decide, rfl, rfl⟩

/-- An accepted move starts from a square holding a piece. -/
theorem accepted_from_piece {b : Board} {fx fy tx ty : Int}
    (h : isValidMove b fx fy tx ty = Run.ok true) :
    ∃ sq, b.read fx fy = Run.ok sq ∧ sq.piece ≠ Piece.Empty := by
  by_cases hf : InB fx fy
  · refine ⟨_, Grid.read_of_inB b hf, ?_⟩
    intro hp
    rw [isValidMove_eq b fx fy tx ty _ (Grid.read_of_inB b hf), hp] at h
    cases h
  · unfold isValidMove at h
    rw [Grid.read_of_not_inB b hf] at h
    cases h

/-- An accepted move never lands on a piece of the mover's own side: every
per-kind predicate refuses such a destination. -/
theorem accepted_not_own {b : Board} {fx fy tx ty : Int} {sq : Square}
    (hsq : b.read fx fy = Run.ok sq)
    (h : isValidMove b fx fy tx ty = Run.ok true) : ¬ OwnedBy b tx ty sq.color := by
  rw [isValidMove_eq b fx fy tx ty _ hsq] at h
  cases hk : sq.piece with
  | Empty =>
    rw [hk] at h
    cases h
  | Pawn =>
    rw [hk] at h
    have hspec := ((iff_of_spec (validPawnMove_spec b fx fy tx ty _ hsq)).2.mp h).2
    rintro ⟨t, ht, htp, htc⟩
    rcases hspec with h1 | h1 | h1
    · exact htp ((isEmptyAt_iff b ht).mp h1.2.2)
    · exact htp ((isEmptyAt_iff b ht).mp h1.2.2.2.2)
    · obtain ⟨-, -, t', ht', -, hc'⟩ := h1
      rw [ht] at ht'
      cases ht'
      rw [htc] at hc'
      cases hc : sq.color <;> rw [hc] at hc' <;> cases hc'
  | Knight =>
    rw [hk] at h
    exact ((iff_of_spec (validKnightMove_spec b fx fy tx ty _ hsq)).2.mp h).2.2
  | Bishop =>
    rw [hk] at h
    exact ((iff_of_spec (validBishopMove_spec b fx fy tx ty _ hsq
      (by rw [hk]; simp))).2.mp h).2.2.2.1
  | Rook =>
    rw [hk] at h
    exact ((iff_of_spec (validRookMove_spec b fx fy tx ty _ hsq
      (by rw [hk]; simp))).2.mp h).2.2.1
  | Queen =>
    rw [hk] at h
    rcases (iff_of_spec (validQueenMove_spec b fx fy tx ty _ hsq
      (by rw [hk]; simp))).2.mp h with h1 | h1
    · exact h1.2.2.1
    · exact h1.2.2.2.1
  | King =>
    rw [hk] at h
    exact ((iff_of_spec (validKingMove_spec b fx fy tx ty _ hsq hk)).2.mp h).2.2.2.1

/-- An accepted move lands on a king of side `s` only if the moving piece is
of the other side. -/
theorem king_taken_by_other_side {b : Board} {s : Color} {fx fy tx ty : Int}
    (h : isValidMove b fx fy tx ty = Run.ok true) (hk : IsKingOf b s tx ty) :
    OwnedBy b fx fy s.other := by
  obtain ⟨sq, hsq, hp⟩ := accepted_from_piece h
  have hnot := accepted_not_own hsq h
  refine ⟨sq, hsq, hp, ?_⟩
  obtain ⟨t, ht, htp, htc⟩ := hk
  have hne : sq.color ≠ s := by
    intro hc
    apply hnot
    exact ⟨t, ht, by rw [htp]; simp, by rw [htc, hc]⟩
  cases hc : sq.color <;> cases s <;> simp_all [Color.other]

theorem not_ownedBy_of_read (b : Board) (x y : Int) (sq : Square) (c : Color)
    (h : b.read x y = Run.ok sq) (hc : sq.color ≠ c) : ¬ OwnedBy b x y c := by
  rintro ⟨sq', h1, -, h3⟩
  rw [h] at h1
  cases h1
  exact hc h3

/-! ## Properties of the program -/

/-- C1. When the only king of side `s` stands on the in-bounds origin, a move of
that king is accepted by `isValidMove` exactly when the destination is in
bounds, at most one rank and one file away, different from the origin, not
held by a piece of side `s`, and the board after the move does not have the
king of `s` in check.  The call always returns a boolean, and it returns
`false` whenever the destination is marked in the opposing side's attack map of
the board after the move. -/
theorem king_move_legal_iff (b : Board) (s : Color) (fx fy tx ty : Int)
    (hking : b.read fx fy = Run.ok ⟨Piece.King, s⟩)
    (honly : ∀ x y, IsKingOf b s x y → x = fx ∧ y = fy) :
    (isValidMove b fx fy tx ty = Run.ok true ∨ isValidMove b fx fy tx ty = Run.ok false) ∧
    (isValidMove b fx fy tx ty = Run.ok true ↔
      InB tx ty ∧ |fx - tx| ≤ 1 ∧ |fy - ty| ≤ 1 ∧ ¬ (tx = fx ∧ ty = fy) ∧
        ¬ OwnedBy b tx ty s ∧
        ∃ next, movePiece b fx fy tx ty = Run.ok next ∧
          isKingInCheck next s = Run.ok false) ∧
    (∀ next attacked, movePiece b fx fy tx ty = Run.ok next →
      buildAttackMap next s.other = Run.ok attacked →
      attacked.read tx ty = Run.ok true →
      isValidMove b fx fy tx ty = Run.ok false) := by
  have heq : isValidMove b fx fy tx ty = validKingMove b fx fy tx ty :=
    isValidMove_eq b fx fy tx ty _ hking
  have hspec := iff_of_spec (validKingMove_spec b fx fy tx ty _ hking rfl)
  rw [← heq] at hspec
  simp only at hspec
  refine ⟨hspec.1, ?_, ?_⟩
  · rw [hspec.2]
    constructor
    · rintro ⟨h1, h2, h3, h4, h5⟩
      refine ⟨h1, h2, h3, ?_, h4, h5⟩
      rintro ⟨rfl, rfl⟩
      exact h4 ⟨_, hking, by simp, rfl⟩
    · rintro ⟨h1, h2, h3, -, h4, h5⟩
      exact ⟨h1, h2, h3, h4, h5⟩
  · intro next attacked hmove hmap hmarked
    rcases hspec.1 with htrue | hfalse
    swap
    · exact hfalse
    exfalso
    obtain ⟨ht, -, -, -, next', hmove', hcheck⟩ := hspec.2.mp htrue
    rw [hmove] at hmove'
    cases hmove'
    have hfind := findKing_after_move b s hking honly hmove ht
    simp only [isKingInCheck, hfind, Run.ok_bind, enemy_eq, hmap, hmarked] at hcheck
    cases hcheck

/-- The king of `kingFacingRook` may not step to `(1,3)`, which stays on the
rook's file, and may step aside to `(0,4)`. -/
theorem king_move_legal_iff_witness :
    kingFacingRook.read 0 3 = Run.ok ⟨Piece.King, Color.White⟩ ∧
      isValidMove kingFacingRook 0 3 1 3 = Run.ok false ∧
      isValidMove kingFacingRook 0 3 0 4 = Run.ok true := by
  have honly : ∀ x y, IsKingOf kingFacingRook Color.White x y → x = 0 ∧ y = 3 :=
    onlyKing_of_cells kingFacingRook Color.White 0 3 (by decide)
  have hmarked : (movePiece kingFacingRook 0 3 1 3 >>= fun next =>
      buildAttackMap next Color.Black >>= fun a => a.read 1 3) = Run.ok true := by decide
  obtain ⟨next, h1, hmarked⟩ := Run.bind_eq_ok hmarked
  obtain ⟨a, h2, h3⟩ := Run.bind_eq_ok hmarked
  exact ⟨by decide,
    (king_move_legal_iff kingFacingRook Color.White 0 3 1 3 (by decide) honly).2.2
      next a h1 h2 h3,
    by decide⟩

/-- C2. A rook move is accepted by `isValidMove` exactly when the destination
is in bounds, exactly one of rank and file differs from the origin, the
destination holds no piece of the rook's side, and every square strictly between
origin and destination is empty (the destination is not part of the emptiness
test); the call always returns a boolean. -/
theorem rook_move_legal_iff (b : Board) (c : Color) (fx fy tx ty : Int)
    (hrook : b.read fx fy = Run.ok ⟨Piece.Rook, c⟩) :
    (isValidMove b fx fy tx ty = Run.ok true ∨ isValidMove b fx fy tx ty = Run.ok false) ∧
    (isValidMove b fx fy tx ty = Run.ok true ↔
      InB tx ty ∧ ((fx ≠ tx ∧ fy = ty) ∨ (fx = tx ∧ fy ≠ ty)) ∧
        ¬ OwnedBy b tx ty c ∧ PathClear b fx fy tx ty) := by
  rw [isValidMove_eq b fx fy tx ty _ hrook]
  exact iff_of_spec (validRookMove_spec b fx fy tx ty _ hrook (by simp))

/-- The rook of `rookSample` may capture the pawn on `(0,5)`; the theorem then
yields that the four squares in between are empty. -/
theorem rook_move_legal_iff_witness :
    rookSample.read 0 0 = Run.ok ⟨Piece.Rook, Color.White⟩ ∧
      isValidMove rookSample 0 0 0 5 = Run.ok true ∧ PathClear rookSample 0 0 0 5 :=
  ⟨by decide, by decide,
    ((rook_move_legal_iff rookSample Color.White 0 0 0 5 (by decide)).2.mp (by decide)).2.2.2⟩

/-- C3. A bishop move is accepted by `isValidMove` exactly when the destination
is in bounds, the rank and file differences are equal in absolute value and
nonzero, the destination holds no piece of the bishop's side, and every square
strictly between origin and destination on the diagonal is empty; the call
always returns a boolean. -/
theorem bishop_move_legal_iff (b : Board) (c : Color) (fx fy tx ty : Int)
    (hbishop : b.read fx fy = Run.ok ⟨Piece.Bishop, c⟩) :
    (isValidMove b fx fy tx ty = Run.ok true ∨ isValidMove b fx fy tx ty = Run.ok false) ∧
    (isValidMove b fx fy tx ty = Run.ok true ↔
      InB tx ty ∧ |fx - tx| = |fy - ty| ∧ |fx - tx| ≠ 0 ∧
        ¬ OwnedBy b tx ty c ∧ PathClear b fx fy tx ty) := by
  rw [isValidMove_eq b fx fy tx ty _ hbishop]
  exact iff_of_spec (validBishopMove_spec b fx fy tx ty _ hbishop (by simp))

/-- The bishop of `bishopSample` may capture the knight on `(5,5)`, and may not
jump over it to `(6,6)`. -/
theorem bishop_move_legal_iff_witness :
    bishopSample.read 2 2 = Run.ok ⟨Piece.Bishop, Color.Black⟩ ∧
      PathClear bishopSample 2 2 5 5 ∧ ¬ PathClear bishopSample 2 2 6 6 :=
  ⟨by decide,
    ((bishop_move_legal_iff bishopSample Color.Black 2 2 5 5 (by decide)).2.mp
      (by decide)).2.2.2.2,
    fun h => absurd
      ((bishop_move_legal_iff bishopSample Color.Black 2 2 6 6 (by decide)).2.mpr
        ⟨by decide, by decide, by decide,
          fun ⟨sq, h1, h2, _⟩ => h2 (by revert h1; intro h1; cases h1; rfl), h⟩)
      (by decide)⟩

/-- C4. A queen move is accepted by `isValidMove` exactly when it satisfies the
rook rule or the bishop rule; equivalently, when the destination is in bounds,
differs from the origin, lies on the origin's rank, file or one of its
diagonals, holds no piece of the queen's side, and every square strictly between
is empty.  The call always returns a boolean. -/
theorem queen_move_legal_iff (b : Board) (c : Color) (fx fy tx ty : Int)
    (hqueen : b.read fx fy = Run.ok ⟨Piece.Queen, c⟩) :
    (isValidMove b fx fy tx ty = Run.ok true ∨ isValidMove b fx fy tx ty = Run.ok false) ∧
    (isValidMove b fx fy tx ty = Run.ok true ↔
      (InB tx ty ∧ ((fx ≠ tx ∧ fy = ty) ∨ (fx = tx ∧ fy ≠ ty)) ∧
        ¬ OwnedBy b tx ty c ∧ PathClear b fx fy tx ty) ∨
      (InB tx ty ∧ |fx - tx| = |fy - ty| ∧ |fx - tx| ≠ 0 ∧
        ¬ OwnedBy b tx ty c ∧ PathClear b fx fy tx ty)) ∧
    (isValidMove b fx fy tx ty = Run.ok true ↔
      InB tx ty ∧ ¬ (tx = fx ∧ ty = fy) ∧
        (tx = fx ∨ ty = fy ∨ |tx - fx| = |ty - fy|) ∧
        ¬ OwnedBy b tx ty c ∧ PathClear b fx fy tx ty) := by
  rw [isValidMove_eq b fx fy tx ty _ hqueen]
  have h := iff_of_spec (validQueenMove_spec b fx fy tx ty _ hqueen (by simp))
  refine ⟨h.1, h.2, ?_⟩
  simp only at h ⊢
  rw [h.2]
  have a1 := abs_cases (fx - tx)
  have a2 := abs_cases (fy - ty)
  have a3 := abs_cases (tx - fx)
  have a4 := abs_cases (ty - fy)
  constructor
  · rintro (⟨h1, h2, h3, h4⟩ | ⟨h1, h2, h3, h4, h5⟩)
    · exact ⟨h1, by omega, by omega, h3, h4⟩
    · exact ⟨h1, by omega, by omega, h4, h5⟩
  · rintro ⟨h1, h2, h3, h4, h5⟩
    by_cases hr : tx = fx ∨ ty = fy
    · left
      exact ⟨h1, by omega, h4, h5⟩
    · right
      exact ⟨h1, by omega, by omega, h4, h5⟩

/-- The queen of `queenSample` may capture the pawn on `(3,6)` along its rank,
and the theorem yields that the two squares in between are empty. -/
theorem queen_move_legal_iff_witness :
    queenSample.read 3 3 = Run.ok ⟨Piece.Queen, Color.White⟩ ∧
      isValidMove queenSample 3 3 3 6 = Run.ok true ∧ PathClear queenSample 3 3 3 6 :=
  ⟨by decide, by decide,
    ((queen_move_legal_iff queenSample Color.White 3 3 3 6 (by decide)).2.2.mp
      (by decide)).2.2.2.2⟩

/-- C5. A knight move is accepted by `isValidMove` exactly when the destination
is in bounds, the absolute rank and file differences are `(1,2)` or `(2,1)`,
and the destination holds no piece of the knight's side.  The call always
returns a boolean, and two boards that agree on the origin and on the
destination give the same answer. -/
theorem knight_move_legal_iff (b : Board) (c : Color) (fx fy tx ty : Int)
    (hknight : b.read fx fy = Run.ok ⟨Piece.Knight, c⟩) :
    (isValidMove b fx fy tx ty = Run.ok true ∨ isValidMove b fx fy tx ty = Run.ok false) ∧
    (isValidMove b fx fy tx ty = Run.ok true ↔
      InB tx ty ∧ ((|fx - tx| = 1 ∧ |fy - ty| = 2) ∨ (|fx - tx| = 2 ∧ |fy - ty| = 1)) ∧
        ¬ OwnedBy b tx ty c) ∧
    (∀ b' : Board, b'.read fx fy = b.read fx fy → b'.read tx ty = b.read tx ty →
      isValidMove b' fx fy tx ty = isValidMove b fx fy tx ty) := by
  have key : ∀ b0 : Board, b0.read fx fy = Run.ok ⟨Piece.Knight, c⟩ →
      (isValidMove b0 fx fy tx ty = Run.ok true ∨ isValidMove b0 fx fy tx ty = Run.ok false) ∧
      (isValidMove b0 fx fy tx ty = Run.ok true ↔
        InB tx ty ∧ ((|fx - tx| = 1 ∧ |fy - ty| = 2) ∨ (|fx - tx| = 2 ∧ |fy - ty| = 1)) ∧
          ¬ OwnedBy b0 tx ty c) := by
    intro b0 h0
    rw [isValidMove_eq b0 fx fy tx ty _ h0]
    have h := iff_of_spec (validKnightMove_spec b0 fx fy tx ty _ h0)
    refine ⟨h.1, ?_⟩
    simp only at h ⊢
    rw [h.2, or_comm]
  refine ⟨(key b hknight).1, (key b hknight).2, ?_⟩
  intro b' hf' ht'
  have k := key b hknight
  have k' := key b' (hf'.trans hknight)
  have hown : OwnedBy b' tx ty c ↔ OwnedBy b tx ty c := by
    unfold OwnedBy
    rw [ht']
  rw [hown, ← k.2] at k'
  rcases k.1 with h | h
  · rw [h, k'.2.mpr h]
  · rcases k'.1 with h' | h'
    · rw [k'.2.mp h'] at h
      cases h
    · rw [h, h']

/-- The knight on `(0,1)` of the starting position may go to `(2,2)`, a square
the theorem then shows not to be held by White. -/
theorem knight_move_legal_iff_witness :
    NewBoard.read 0 1 = Run.ok ⟨Piece.Knight, Color.White⟩ ∧
      isValidMove NewBoard 0 1 2 2 = Run.ok true ∧ ¬ OwnedBy NewBoard 2 2 Color.White :=
  ⟨by decide, by decide,
    ((knight_move_legal_iff NewBoard Color.White 0 1 2 2 (by decide)).2.1.mp
      (by decide)).2.2⟩

/-- C6. A pawn move is accepted by `isValidMove` exactly when the destination is
in bounds and the move is (a) one step forward on the same file onto an empty
square, (b) two steps forward from the start rank on the same file with the
intermediate and destination squares empty, or (c) one step diagonally forward
onto a piece of the opposing side.  Consequently a pawn on its start rank with
the two squares ahead empty has exactly two same-file destinations, a pawn
whose square immediately ahead is occupied has none, and a diagonal step onto
an empty or same-side square is rejected.  The call always returns a
boolean. -/
theorem pawn_move_legal_iff (b : Board) (s : Color) (fx fy tx ty : Int)
    (hpawn : b.read fx fy = Run.ok ⟨Piece.Pawn, s⟩) :
    (isValidMove b fx fy tx ty = Run.ok true ∨ isValidMove b fx fy tx ty = Run.ok false) ∧
    (isValidMove b fx fy tx ty = Run.ok true ↔
      InB tx ty ∧
        ((ty = fy ∧ tx = fx + pawnDir s ∧ IsEmptyAt b tx ty) ∨
         (ty = fy ∧ fx = pawnStart s ∧ tx = fx + 2 * pawnDir s ∧
            IsEmptyAt b (fx + pawnDir s) fy ∧ IsEmptyAt b tx ty) ∨
         (tx = fx + pawnDir s ∧ (ty = fy + 1 ∨ ty = fy - 1) ∧
            OwnedBy b tx ty s.other))) ∧
    (fx = pawnStart s → IsEmptyAt b (fx + pawnDir s) fy →
      IsEmptyAt b (fx + 2 * pawnDir s) fy →
      ∀ x : Int, isValidMove b fx fy x fy = Run.ok true ↔
        x = fx + pawnDir s ∨ x = fx + 2 * pawnDir s) ∧
    ((∃ sq, b.read (fx + pawnDir s) fy = Run.ok sq ∧ sq.piece ≠ Piece.Empty) →
      ∀ x : Int, isValidMove b fx fy x fy = Run.ok false) ∧
    (tx = fx + pawnDir s → (ty = fy + 1 ∨ ty = fy - 1) →
      (IsEmptyAt b tx ty ∨ OwnedBy b tx ty s) →
      isValidMove b fx fy tx ty = Run.ok false) := by
  have key : ∀ x y : Int,
      (isValidMove b fx fy x y = Run.ok true ∨ isValidMove b fx fy x y = Run.ok false) ∧
      (isValidMove b fx fy x y = Run.ok true ↔
        InB x y ∧
          ((y = fy ∧ x = fx + pawnDir s ∧ IsEmptyAt b x y) ∨
           (y = fy ∧ fx = pawnStart s ∧ x = fx + 2 * pawnDir s ∧
              IsEmptyAt b (fx + pawnDir s) fy ∧ IsEmptyAt b x y) ∨
           (x = fx + pawnDir s ∧ (y = fy + 1 ∨ y = fy - 1) ∧
              OwnedBy b x y s.other))) := by
    intro x y
    rw [isValidMove_eq b fx fy x y _ hpawn]
    exact iff_of_spec (validPawnMove_spec b fx fy x y _ hpawn)
  have hfalse : ∀ x y : Int, ¬ isValidMove b fx fy x y = Run.ok true →
      isValidMove b fx fy x y = Run.ok false := by
    intro x y h
    rcases (key x y).1 with h' | h'
    · exact absurd h' h
    · exact h'
  have hdv : pawnDir s = 1 ∨ pawnDir s = -1 := by
    cases s <;> simp [pawnDir]
  refine ⟨(key tx ty).1, (key tx ty).2, ?_, ?_, ?_⟩
  · intro hstart h1 h2 x
    rw [(key x fy).2]
    constructor
    · rintro ⟨-, h | h | h⟩
      · exact Or.inl h.2.1
      · exact Or.inr h.2.2.1
      · omega
    · rintro (rfl | rfl)
      · have hin : InB (fx + pawnDir s) fy := by
          obtain ⟨sq, hsq, -⟩ := h1
          exact Grid.inB_of_read hsq
        exact ⟨hin, Or.inl ⟨rfl, rfl, h1⟩⟩
      · have hin : InB (fx + 2 * pawnDir s) fy := by
          obtain ⟨sq, hsq, -⟩ := h2
          exact Grid.inB_of_read hsq
        exact ⟨hin, Or.inr (Or.inl ⟨rfl, hstart, rfl, h1, h2⟩)⟩
  · rintro ⟨sq, hsq, hocc⟩ x
    apply hfalse
    rw [(key x fy).2]
    have hne : ¬ IsEmptyAt b (fx + pawnDir s) fy := fun h =>
      hocc ((isEmptyAt_iff b hsq).mp h)
    rintro ⟨-, h | h | h⟩
    · obtain ⟨-, rfl, h3⟩ := h
      exact hne h3
    · exact hne h.2.2.2.1
    · omega
  · intro hx hy hocc
    apply hfalse
    rw [(key tx ty).2]
    rintro ⟨-, h | h | h⟩
    · omega
    · omega
    · obtain ⟨-, -, sq, hsq, hne, hcol⟩ := h
      rcases hocc with he | ⟨sq', hsq', -, hcol'⟩
      · exact hne ((isEmptyAt_iff b hsq).mp he)
      · rw [hsq] at hsq'
        cases hsq'
        rw [hcol'] at hcol
        cases s <;> cases hcol

/-- In the starting position the pawn on `(1,4)` may advance two squares, and
the theorem shows that its same-file destinations are exactly `(2,4)` and
`(3,4)`. -/
theorem pawn_move_legal_iff_witness :
    NewBoard.read 1 4 = Run.ok ⟨Piece.Pawn, Color.White⟩ ∧
      (∀ x : Int, isValidMove NewBoard 1 4 x 4 = Run.ok true ↔ x = 2 ∨ x = 3) :=
  ⟨by decide,
    (pawn_move_legal_iff NewBoard Color.White 1 4 3 4 (by decide)).2.2.1 (by decide)
      ⟨Square.zero, by decide, by decide⟩ ⟨Square.zero, by decide, by decide⟩⟩

/-- C7. With an out-of-bounds origin `isValidMove` does not return `false`: the
read `b[fromX][fromY]` that opens the function is an index out of range, which
panics. -/
theorem isValidMove_source_out_of_bounds (b : Board) (fromX fromY toX toY : Int)
    (h : ¬ InB fromX fromY) :
    isValidMove b fromX fromY toX toY = Run.fault Fault.indexOutOfRange := by
  unfold isValidMove
  rw [Grid.read_of_not_inB b h]
  rfl

/-- On the starting position, the origin `(8,0)` makes `isValidMove` panic. -/
theorem isValidMove_source_out_of_bounds_witness :
    ¬ InB 8 0 ∧ isValidMove NewBoard 8 0 0 0 = Run.fault Fault.indexOutOfRange ∧
      isValidMove NewBoard 8 0 0 0 ≠ Run.ok false :=
  ⟨by decide, isValidMove_source_out_of_bounds NewBoard 8 0 0 0 (by decide), by decide⟩

/-- C8. With an in-bounds origin (empty or holding any piece) and an
out-of-bounds destination, `isValidMove` returns `false`. -/
theorem isValidMove_dest_out_of_bounds (b : Board) (fromX fromY toX toY : Int)
    (hfrom : InB fromX fromY) (hto : ¬ InB toX toY) :
    isValidMove b fromX fromY toX toY = Run.ok false :=
  isValidMove_of_dest_out b fromX fromY toX toY hfrom hto

/-- From the starting position, neither the rook on `(0,0)` nor the empty
square `(3,3)` can move to a destination off the board. -/
theorem isValidMove_dest_out_of_bounds_witness :
    isValidMove NewBoard 0 0 (-1) 0 = Run.ok false ∧
      isValidMove NewBoard 3 3 3 8 = Run.ok false :=
  ⟨isValidMove_dest_out_of_bounds NewBoard 0 0 (-1) 0 (by decide) (by decide),
    isValidMove_dest_out_of_bounds NewBoard 3 3 3 8 (by decide) (by decide)⟩

/-- C9. For distinct in-bounds squares, `movePiece` returns a board whose origin
square is `Square{}`, whose destination square holds what the origin held
(whatever stood there before, and without any legality check), and which agrees
with the input board everywhere else. -/
theorem movePiece_frame (b : Board) (xFrom yFrom xTo yTo : Int)
    (hfrom : InB xFrom yFrom) (hto : InB xTo yTo)
    (hne : ¬ (xFrom = xTo ∧ yFrom = yTo)) :
    ∃ r, movePiece b xFrom yFrom xTo yTo = Run.ok r ∧
      r.read xFrom yFrom = Run.ok Square.zero ∧
      r.read xTo yTo = b.read xFrom yFrom ∧
      ∀ x y, ¬ (x = xFrom ∧ y = yFrom) → ¬ (x = xTo ∧ y = yTo) →
        r.read x y = b.read x y := by
  obtain ⟨r, hr, hread⟩ := movePiece_ok b hfrom hto
  refine ⟨r, hr, ?_, ?_, ?_⟩
  · rw [hread, if_neg hne, if_pos ⟨rfl, rfl⟩]
  · rw [hread, if_pos ⟨rfl, rfl⟩]
  · intro x y h1 h2
    rw [hread, if_neg h2, if_neg h1]

/-- Moving the pawn from `(1,4)` to `(3,4)` in the starting position. -/
theorem movePiece_frame_witness :
    ∃ r, movePiece NewBoard 1 4 3 4 = Run.ok r ∧
      r.read 1 4 = Run.ok Square.zero ∧
      r.read 3 4 = Run.ok ⟨Piece.Pawn, Color.White⟩ ∧
      r.read 0 4 = Run.ok ⟨Piece.King, Color.White⟩ := by
  obtain ⟨r, h1, h2, h3, h4⟩ :=
    movePiece_frame NewBoard 1 4 3 4 (by decide) (by decide) (by decide)
  exact ⟨r, h1, h2, h3.trans (by decide),
    (h4 0 4 (by decide) (by decide)).trans (by decide)⟩

/-- C10. `buildAttackMap` returns, and marks an in-bounds square exactly when
some piece of the queried side attacks it: a pawn its two forward diagonals, a
knight the eight knight offsets, a king the eight surrounding squares, a
bishop, rook or queen every other square of its lines up to and including the
first occupied one.  What stands on the square itself is irrelevant: two boards
that differ only there mark it alike. -/
theorem buildAttackMap_marks_iff (b : Board) (s : Color) :
    ∃ m, buildAttackMap b s = Run.ok m ∧
      (∀ tx ty, InB tx ty →
        (m.read tx ty = Run.ok true ↔
          ∃ fx fy sq, b.read fx fy = Run.ok sq ∧ sq.piece ≠ Piece.Empty ∧ sq.color = s ∧
            Attacks b sq fx fy tx ty)) ∧
      (∀ tx ty, InB tx ty → ∀ b' : Board,
        (∀ x y, ¬ (x = tx ∧ y = ty) → b'.read x y = b.read x y) →
        ∃ m', buildAttackMap b' s = Run.ok m' ∧
          (m'.read tx ty = Run.ok true ↔ m.read tx ty = Run.ok true)) := by
  obtain ⟨m, hm, hspec⟩ := buildAttackMap_spec b s
  refine ⟨m, hm, hspec, ?_⟩
  intro tx ty ht b' hagree
  obtain ⟨m', hm', hspec'⟩ := buildAttackMap_spec b' s
  refine ⟨m', hm', ?_⟩
  rw [hspec tx ty ht, hspec' tx ty ht]
  constructor
  · rintro ⟨fx, fy, sq, h1, h2, h3, h4⟩
    refine ⟨fx, fy, sq, ?_, h2, h3, (attacks_congr hagree).mp h4⟩
    rw [← hagree fx fy (Attacks.ne h4)]
    exact h1
  · rintro ⟨fx, fy, sq, h1, h2, h3, h4⟩
    refine ⟨fx, fy, sq, ?_, h2, h3, (attacks_congr hagree).mpr h4⟩
    rw [hagree fx fy (Attacks.ne h4)]
    exact h1

/-- The black rook of `kingFacingRook` marks `(1,3)`, six squares down its
file; the theorem yields the attacking piece. -/
theorem buildAttackMap_marks_iff_witness :
    ∃ fx fy sq, kingFacingRook.read fx fy = Run.ok sq ∧ sq.color = Color.Black ∧
      Attacks kingFacingRook sq fx fy 1 3 := by
  obtain ⟨m, hm, hspec, -⟩ := buildAttackMap_marks_iff kingFacingRook Color.Black
  have hmark : (buildAttackMap kingFacingRook Color.Black >>= fun a => a.read 1 3)
      = Run.ok true := by decide
  rw [hm] at hmark
  obtain ⟨fx, fy, sq, h1, -, h3, h4⟩ := (hspec 1 3 (by decide)).mp hmark
  exact ⟨fx, fy, sq, h1, h3, h4⟩

/-- C11. On a board whose only piece is a rook of side `s` on the in-bounds
square `(fx, fy)`, `buildAttackMap` for side `s` marks exactly the squares that
share a rank or a file with `(fx, fy)`, that square excepted: fourteen squares
in all. -/
theorem lone_rook_attack_map (b : Board) (s : Color) (fx fy : Int)
    (hrook : b.read fx fy = Run.ok ⟨Piece.Rook, s⟩)
    (hlone : ∀ x y, InB x y → ¬ (x = fx ∧ y = fy) → IsEmptyAt b x y) :
    ∃ m, buildAttackMap b s = Run.ok m ∧
      (∀ tx ty, InB tx ty →
        (m.read tx ty = Run.ok true ↔ (tx = fx ∨ ty = fy) ∧ ¬ (tx = fx ∧ ty = fy))) ∧
      m.count id = 14 := by
  have hf := Grid.inB_of_read hrook
  obtain ⟨m, hm, hspec⟩ := buildAttackMap_spec b s
  have hiff : ∀ tx ty, InB tx ty →
      (m.read tx ty = Run.ok true ↔ (tx = fx ∨ ty = fy) ∧ ¬ (tx = fx ∧ ty = fy)) := by
    intro tx ty ht
    rw [hspec tx ty ht]
    constructor
    · rintro ⟨x, y, sq, h1, h2, -, h4⟩
      have hxy : x = fx ∧ y = fy := by
        by_contra hne
        exact h2 ((isEmptyAt_iff b h1).mp (hlone x y (Grid.inB_of_read h1) hne))
      obtain ⟨rfl, rfl⟩ := hxy
      rw [hrook] at h1
      cases h1
      exact ⟨h4.1, h4.2.1⟩
    · rintro ⟨h1, h2⟩
      refine ⟨fx, fy, _, hrook, by simp, rfl, h1, h2, ?_⟩
      refine pathClear_of_lone b hf ht hlone ?_ h2
      unfold Aligned
      omega
  refine ⟨m, hm, hiff, ?_⟩
  unfold InB at hf
  have hcell : m = fun i j => decide ((i = (⟨fx.toNat, by omega⟩ : Fin 8) ∨
      j = (⟨fy.toNat, by omega⟩ : Fin 8)) ∧
      ¬ (i = (⟨fx.toNat, by omega⟩ : Fin 8) ∧ j = (⟨fy.toNat, by omega⟩ : Fin 8))) := by
    funext i j
    have hin : InB ((i : Nat) : Int) ((j : Nat) : Int) := by
      unfold InB
      omega
    have h := hiff _ _ hin
    rw [Grid.read_fin] at h
    have e : ((((i : Nat) : Int) = fx ∨ ((j : Nat) : Int) = fy) ∧
        ¬ (((i : Nat) : Int) = fx ∧ ((j : Nat) : Int) = fy)) ↔
        ((i = (⟨fx.toNat, by omega⟩ : Fin 8) ∨ j = (⟨fy.toNat, by omega⟩ : Fin 8)) ∧
          ¬ (i = (⟨fx.toNat, by omega⟩ : Fin 8) ∧ j = (⟨fy.toNat, by omega⟩ : Fin 8))) := by
      simp only [Fin.ext_iff]
      omega
    rw [e] at h
    cases hv : m i j
    · rw [hv] at h
      symm
      rw [decide_eq_false_iff_not]
      intro hc
      have := h.mpr hc
      cases this
    · rw [hv] at h
      symm
      rw [decide_eq_true_iff]
      exact h.mp rfl
  rw [hcell]
  exact cross_count _ _

/-- A lone rook on `(0,0)` marks `(0,7)` and `(7,0)`, does not mark `(1,1)`,
and marks fourteen squares. -/
theorem lone_rook_attack_map_witness :
    ∃ m, buildAttackMap loneRook Color.White = Run.ok m ∧
      m.read 0 7 = Run.ok true ∧ m.read 7 0 = Run.ok true ∧ m.read 1 1 ≠ Run.ok true ∧
      m.read 0 0 ≠ Run.ok true ∧ m.count id = 14 := by
  obtain ⟨m, hm, hiff, hcount⟩ := lone_rook_attack_map loneRook Color.White 0 0 (by decide)
    (emptyElsewhere_of_cells loneRook 0 0 (by decide))
  exact ⟨m, hm, (hiff 0 7 (by decide)).mpr (by decide), (hiff 7 0 (by decide)).mpr (by decide),
    fun h => absurd ((hiff 1 1 (by decide)).mp h) (by decide),
    fun h => absurd ((hiff 0 0 (by decide)).mp h) (by decide), hcount⟩

/-- C12. From the starting position the pawn move `(1,4)` to `(3,4)` is
accepted; applying it leaves `(1,4)` empty and a white pawn on `(3,4)`; and on
the resulting board the black pawn's advance from `(6,4)` onto `(3,4)` is
rejected. -/
theorem opening_pawn_moves :
    isValidMove NewBoard 1 4 3 4 = Run.ok true ∧
      ∃ b1, movePiece NewBoard 1 4 3 4 = Run.ok b1 ∧
        b1.read 1 4 = Run.ok Square.zero ∧
        b1.read 3 4 = Run.ok ⟨Piece.Pawn, Color.White⟩ ∧
        isValidMove b1 6 4 3 4 = Run.ok false := by
  refine ⟨by decide, ?_⟩
  have h1 : (movePiece NewBoard 1 4 3 4 >>= fun b1 => b1.read 1 4) = Run.ok Square.zero := by
    decide
  have h2 : (movePiece NewBoard 1 4 3 4 >>= fun b1 => b1.read 3 4)
      = Run.ok ⟨Piece.Pawn, Color.White⟩ := by decide
  have h3 : (movePiece NewBoard 1 4 3 4 >>= fun b1 => isValidMove b1 6 4 3 4)
      = Run.ok false := by decide
  obtain ⟨b1, e1, r1⟩ := Run.bind_eq_ok h1
  rw [e1] at h2 h3
  exact ⟨b1, e1, r1, h2, h3⟩

/-- C13. `NewBoard` is the standard starting position: the back ranks hold
rook, knight, bishop, queen, king, bishop, knight, rook on files `0..7` (White
on rank `0`, Black on rank `7`), ranks `1` and `6` hold the white and black
pawns, and ranks `2..5` are empty.  Hence each side has exactly one king and
sixteen pieces. -/
theorem newBoard_layout :
    coords.map (fun y => NewBoard.read 0 y) =
      [Piece.Rook, Piece.Knight, Piece.Bishop, Piece.Queen, Piece.King, Piece.Bishop,
        Piece.Knight, Piece.Rook].map (fun p => Run.ok ⟨p, Color.White⟩) ∧
    coords.map (fun y => NewBoard.read 7 y) =
      [Piece.Rook, Piece.Knight, Piece.Bishop, Piece.Queen, Piece.King, Piece.Bishop,
        Piece.Knight, Piece.Rook].map (fun p => Run.ok ⟨p, Color.Black⟩) ∧
    (∀ y ∈ coords, NewBoard.read 1 y = Run.ok ⟨Piece.Pawn, Color.White⟩) ∧
    (∀ y ∈ coords, NewBoard.read 6 y = Run.ok ⟨Piece.Pawn, Color.Black⟩) ∧
    (∀ x ∈ ([2, 3, 4, 5] : List Int), ∀ y ∈ coords, NewBoard.read x y = Run.ok Square.zero) ∧
    (∀ s : Color,
      NewBoard.count (fun sq => decide (sq.piece = Piece.King ∧ sq.color = s)) = 1 ∧
      NewBoard.count (fun sq => decide (sq.piece ≠ Piece.Empty ∧ sq.color = s)) = 16) := by
  refine ⟨by decide, by decide, by decide, by decide, by decide, ?_⟩
  intro s
  cases s <;> decide

/-- C14, as stated, fails: the white knight reaches the black king by the
accepted moves `(0,1)`, `(2,2)`, `(4,3)`, `(6,2)`, `(7,4)` and takes it; the
board so reached holds no black king, and `findKing` and `isKingInCheck` for
Black run into `king not found`. -/
theorem king_capture_reachable :
    Reachable raid4 ∧ (∀ x y, ¬ IsKingOf raid4 Color.Black x y) ∧
      findKing raid4 Color.Black = Run.fault Fault.kingNotFound ∧
      isKingInCheck raid4 Color.Black = Run.fault Fault.kingNotFound := by
  have hreach : Reachable raid4 :=
    Reachable.step 6 2 7 4
      (Reachable.step 4 3 6 2
        (Reachable.step 2 2 4 3
          (Reachable.step 0 1 2 2 Reachable.start (by decide) rfl)
          (by decide) rfl)
        (by decide) rfl)
      (by decide) rfl
  have hfind : findKing raid4 Color.Black = Run.fault Fault.kingNotFound := by decide
  refine ⟨hreach, ?_, hfind, by decide⟩
  rcases findKing_spec raid4 Color.Black with ⟨p, h1, -⟩ | ⟨-, h2⟩
  · rw [hfind] at h1
    cases h1
  · exact h2

/-- C14, amended.  For each side `s`: on every board reachable from the
starting position by moves that `isValidMove` accepts and `movePiece` applies,
none of which is a move of a piece of the other side onto a king of side `s`,
a king of side `s` is present, so `findKing` and `isKingInCheck` return for
side `s` without reaching `king not found`.  (A move of side `s` itself onto
its own king needs no exclusion: `isValidMove` rejects it.) -/
theorem king_present_unless_captured (s : Color) (b : Board) (h : ReachableSparing s b) :
    (∃ x y, IsKingOf b s x y) ∧ (∃ p, findKing b s = Run.ok p) ∧
      (∃ v, isKingInCheck b s = Run.ok v) := by
  have hk : ∃ x y, IsKingOf b s x y := by
    induction h with
    | start => exact newBoard_has_kings s
    | step fx fy tx ty _ hvalid hspare hmove ih =>
      exact king_survives_move hmove
        (fun hking => hspare ⟨king_taken_by_other_side hvalid hking, hking⟩) ih
  exact ⟨hk, king_found_of_present b s hk⟩

/-- The knight's four moves, the last of which takes the black king, spare the
white king, which is still found on `raid4`; the first three spare the black
king too, which is still found on `raid3`. -/
theorem king_present_unless_captured_witness :
    ReachableSparing Color.White raid4 ∧ (∃ p, findKing raid4 Color.White = Run.ok p) ∧
      ReachableSparing Color.Black raid3 ∧ (∃ p, findKing raid3 Color.Black = Run.ok p) := by
  have hw : ReachableSparing Color.White raid4 :=
    ReachableSparing.step 6 2 7 4
      (ReachableSparing.step 4 3 6 2
        (ReachableSparing.step 2 2 4 3
          (ReachableSparing.step 0 1 2 2 ReachableSparing.start (by decide)
            (fun h => not_ownedBy_of_read NewBoard 0 1 ⟨Piece.Knight, Color.White⟩ Color.Black
              (by decide) (by decide) h.1) rfl)
          (by decide)
          (fun h => not_ownedBy_of_read raid1 2 2 ⟨Piece.Knight, Color.White⟩ Color.Black
            (by decide) (by decide) h.1) rfl)
        (by decide)
        (fun h => not_ownedBy_of_read raid2 4 3 ⟨Piece.Knight, Color.White⟩ Color.Black
          (by decide) (by decide) h.1) rfl)
      (by decide)
      (fun h => not_ownedBy_of_read raid3 6 2 ⟨Piece.Knight, Color.White⟩ Color.Black
        (by decide) (by decide) h.1) rfl
  have hb : ReachableSparing Color.Black raid3 :=
    ReachableSparing.step 4 3 6 2
      (ReachableSparing.step 2 2 4 3
        (ReachableSparing.step 0 1 2 2 ReachableSparing.start (by decide)
          (fun h => not_king_of_read NewBoard 2 2 Square.zero (by decide) (by decide)
            Color.Black h.2) rfl)
        (by decide)
        (fun h => not_king_of_read raid1 4 3 Square.zero (by decide) (by decide)
          Color.Black h.2) rfl)
      (by decide)
      (fun h => not_king_of_read raid2 6 2 ⟨Piece.Pawn, Color.Black⟩ (by decide) (by decide)
        Color.Black h.2) rfl
  exact ⟨hw, (king_present_unless_captured Color.White raid4 hw).2.1,
    hb, (king_present_unless_captured Color.Black raid3 hb).2.1⟩

/-- C15. A move from a square onto itself is rejected: for every board and every
in-bounds square holding a piece of any kind, `isValidMove` from that square to
that square returns `false`. -/
theorem same_square_move_illegal (b : Board) (fx fy : Int) (sq : Square)
    (hsq : b.read fx fy = Run.ok sq) (hp : sq.piece ≠ Piece.Empty) :
    isValidMove b fx fy fx fy = Run.ok false := by
  have hown := ownedBy_self b hsq hp
  rw [isValidMove_eq b fx fy fx fy _ hsq]
  have hdv : pawnDir sq.color = 1 ∨ pawnDir sq.color = -1 := by
    cases sq.color <;> simp [pawnDir]
  cases hk : sq.piece with
  | Empty => exact absurd hk hp
  | Pawn =>
    refine false_of_spec (validPawnMove_spec b fx fy fx fy _ hsq) ?_
    rintro ⟨-, h | h | h⟩ <;> omega
  | Knight =>
    refine false_of_spec (validKnightMove_spec b fx fy fx fy _ hsq) ?_
    rintro ⟨-, h, -⟩
    simp at h
  | Bishop =>
    refine false_of_spec (validBishopMove_spec b fx fy fx fy _ hsq hp) ?_
    rintro ⟨-, -, -, h, -⟩
    exact h hown
  | Rook =>
    refine false_of_spec (validRookMove_spec b fx fy fx fy _ hsq hp) ?_
    rintro ⟨-, -, h, -⟩
    exact h hown
  | Queen =>
    refine false_of_spec (validQueenMove_spec b fx fy fx fy _ hsq hp) ?_
    rintro (⟨-, -, h, -⟩ | ⟨-, -, -, h, -⟩) <;> exact h hown
  | King =>
    refine false_of_spec (validKingMove_spec b fx fy fx fy _ hsq hk) ?_
    rintro ⟨-, -, -, h, -⟩
    exact h hown

/-- In the starting position no piece may move onto its own square: here the
knight on `(0,1)` and the king on `(7,4)`. -/
theorem same_square_move_illegal_witness :
    isValidMove NewBoard 0 1 0 1 = Run.ok false ∧ isValidMove NewBoard 7 4 7 4 = Run.ok false :=
  ⟨same_square_move_illegal NewBoard 0 1 ⟨Piece.Knight, Color.White⟩ (by decide) (by decide),
    same_square_move_illegal NewBoard 7 4 ⟨Piece.King, Color.Black⟩ (by decide) (by decide)⟩

/-- C16. With an in-bounds origin, and whatever kings the board holds,
`isValidMove` returns a boolean: it raises neither an index-out-of-range panic
nor the `king not found` panic, and its loops do not run on.  Moreover,
whenever `validRookMove` or `validBishopMove` reaches its path-walking loop from
a non-empty origin, that loop returns within a budget of seven iterations. -/
theorem isValidMove_total_and_safe (b : Board) (fx fy tx ty : Int) (hfrom : InB fx fy) :
    (isValidMove b fx fy tx ty = Run.ok true ∨ isValidMove b fx fy tx ty = Run.ok false) ∧
    (∀ e : Fault, isValidMove b fx fy tx ty ≠ Run.fault e) ∧
    (∀ sq, b.read fx fy = Run.ok sq → sq.piece ≠ Piece.Empty → InB tx ty →
      ¬ (fx ≠ tx ∧ fy ≠ ty) → sameColor b fx fy tx ty = Run.ok false →
      ∃ v, rookLoop b tx ty
        (if fx < tx then 1 else if fx > tx then -1 else 0)
        (if fy < ty then 1 else if fy > ty then -1 else 0) 7
        (fx + (if fx < tx then 1 else if fx > tx then -1 else 0))
        (fy + (if fy < ty then 1 else if fy > ty then -1 else 0)) = Run.ok v) ∧
    (∀ sq, b.read fx fy = Run.ok sq → sq.piece ≠ Piece.Empty → InB tx ty →
      absDiff fx tx = absDiff fy ty → sameColor b fx fy tx ty = Run.ok false →
      ∃ v, bishopLoop b tx ty
        (if tx < fx then -1 else 1) (if ty < fy then -1 else 1) 7
        (fx + (if tx < fx then -1 else 1)) (fy + (if ty < fy then -1 else 1)) = Run.ok v) := by
  have htot := isValidMove_total b tx ty hfrom
  refine ⟨total_of_spec htot, ?_, ?_, ?_⟩
  · intro e he
    obtain ⟨v, hv⟩ := htot
    rw [hv] at he
    cases he
  · intro sq hsq hp ht hline hsame
    exact rookLoop_terminates b hsq hp ht hline hsame
  · intro sq hsq hp ht hdiag hsame
    exact bishopLoop_terminates b hsq hp ht hdiag hsame

/-- On `shieldedKing`, the rook's longest move, seven files across rank `7`,
is decided (and accepted) with the loop budget of seven. -/
theorem isValidMove_total_and_safe_witness :
    InB 7 4 ∧ isValidMove shieldedKing 7 4 7 0 = Run.ok true ∧
      ∃ v, rookLoop shieldedKing 7 0 0 (-1) 7 7 3 = Run.ok v :=
  ⟨by decide, by decide,
    (isValidMove_total_and_safe shieldedKing 7 4 7 0 (by decide)).2.2.1
      ⟨Piece.Rook, Color.Black⟩ (by decide) (by decide) (by decide) (by decide) (by decide)⟩

/-- C17. Only king moves are checked against self-check.  On `shieldedKing`
each side has exactly one king and the white king is not in check, yet the
white rook's move from `(1,4)` to `(1,0)` is accepted although it leaves the
white king in check. -/
theorem non_king_move_may_expose_king :
    ∃ (b : Board) (s : Color) (fx fy tx ty : Int),
      (∀ c : Color, b.count (fun sq => decide (sq.piece = Piece.King ∧ sq.color = c)) = 1) ∧
      isKingInCheck b s = Run.ok false ∧
      (∃ sq, b.read fx fy = Run.ok sq ∧ sq.piece ≠ Piece.Empty ∧ sq.piece ≠ Piece.King ∧
        sq.color = s) ∧
      isValidMove b fx fy tx ty = Run.ok true ∧
      ∃ next, movePiece b fx fy tx ty = Run.ok next ∧ isKingInCheck next s = Run.ok true := by
  refine ⟨shieldedKing, Color.White, 1, 4, 1, 0, ?_, by decide,
    ⟨⟨Piece.Rook, Color.White⟩, by decide, by decide, by decide, rfl⟩, by decide, ?_⟩
  · intro c
    cases c <;> decide
  · have h : (movePiece shieldedKing 1 4 1 0 >>= fun next => isKingInCheck next Color.White)
        = Run.ok true := by decide
    obtain ⟨next, e1, e2⟩ := Run.bind_eq_ok h
    exact ⟨next, e1, e2⟩

/-- C18. For a pawn of side `s` on `(x, y)`, `buildAttackMap` for side `s` marks
each in-bounds square among `(x + dir, y - 1)` and `(x + dir, y + 1)`, whatever
stands there.  When that pawn is the only piece of side `s`, these are the only
marked squares; in particular the square straight ahead is not marked, also
when the pawn may advance onto it. -/
theorem pawn_attack_squares (b : Board) (s : Color) (x y : Int)
    (hpawn : b.read x y = Run.ok ⟨Piece.Pawn, s⟩) :
    ∃ m, buildAttackMap b s = Run.ok m ∧
      (∀ ty, (ty = y - 1 ∨ ty = y + 1) → InB (x + pawnDir s) ty →
        m.read (x + pawnDir s) ty = Run.ok true) ∧
      ((∀ x' y', OwnedBy b x' y' s → x' = x ∧ y' = y) →
        (∀ tx ty, InB tx ty →
          (m.read tx ty = Run.ok true ↔ tx = x + pawnDir s ∧ (ty = y - 1 ∨ ty = y + 1))) ∧
        (InB (x + pawnDir s) y → m.read (x + pawnDir s) y = Run.ok false)) := by
  obtain ⟨m, hm, hspec⟩ := buildAttackMap_spec b s
  have hmarked : ∀ ty, (ty = y - 1 ∨ ty = y + 1) → InB (x + pawnDir s) ty →
      m.read (x + pawnDir s) ty = Run.ok true := by
    intro ty hty hin
    rw [hspec _ _ hin]
    exact ⟨x, y, _, hpawn, by simp, rfl, rfl, hty⟩
  have honlyMarks : (∀ x' y', OwnedBy b x' y' s → x' = x ∧ y' = y) →
      ∀ tx ty, InB tx ty →
        (m.read tx ty = Run.ok true ↔ tx = x + pawnDir s ∧ (ty = y - 1 ∨ ty = y + 1)) := by
    intro honly tx ty ht
    constructor
    · intro h
      obtain ⟨x', y', sq, h1, h2, h3, h4⟩ := (hspec tx ty ht).mp h
      obtain ⟨rfl, rfl⟩ := honly x' y' ⟨sq, h1, h2, h3⟩
      rw [hpawn] at h1
      cases h1
      exact h4
    · rintro ⟨rfl, hty⟩
      exact hmarked ty hty ht
  refine ⟨m, hm, hmarked, fun honly => ⟨honlyMarks honly, fun hin => ?_⟩⟩
  apply read_false_of_ne hin
  intro h
  have := (honlyMarks honly _ _ hin).mp h
  omega

/-- The lone pawn on `(1,4)` may advance to `(2,4)`, which it does not attack;
it attacks `(2,3)` and `(2,5)`, both empty. -/
theorem pawn_attack_squares_witness :
    isValidMove lonePawn 1 4 2 4 = Run.ok true ∧
      ∃ m, buildAttackMap lonePawn Color.White = Run.ok m ∧
        m.read 2 4 = Run.ok false ∧ m.read 2 3 = Run.ok true ∧ m.read 2 5 = Run.ok true := by
  obtain ⟨m, hm, hmarked, hrest⟩ := pawn_attack_squares lonePawn Color.White 1 4 (by decide)
  exact ⟨by decide, m, hm,
    (hrest (ownedOnly_of_cells lonePawn Color.White 1 4 (by decide))).2 (by decide),
    hmarked 3 (by decide) (by decide), hmarked 5 (by decide) (by decide)⟩

/-- C19. For a knight, bishop, rook or queen on an in-bounds origin and an
in-bounds destination, `isValidMove` accepts the move exactly when
`markAttacks`, run for the origin on the all-false attack map, marks the
destination and `sameColor` is false for the two squares. -/
theorem legality_agrees_with_attacks (b : Board) (fx fy tx ty : Int) (sq : Square)
    (hsq : b.read fx fy = Run.ok sq)
    (hkind : sq.piece = Piece.Knight ∨ sq.piece = Piece.Bishop ∨ sq.piece = Piece.Rook ∨
      sq.piece = Piece.Queen)
    (hto : InB tx ty) :
    ∃ m, markAttacks b fx fy emptyAttackMap = Run.ok m ∧
      (isValidMove b fx fy tx ty = Run.ok true ↔
        m.read tx ty = Run.ok true ∧ sameColor b fx fy tx ty = Run.ok false) := by
  obtain ⟨m, hm, hmarks⟩ := markAttacks_spec b hsq emptyAttackMap
  refine ⟨m, hm, ?_⟩
  rw [marks_from_empty hmarks hto, sameColor_false_iff b hsq hto,
    isValidMove_eq b fx fy tx ty _ hsq]
  have hp : sq.piece ≠ Piece.Empty := by
    rcases hkind with h | h | h | h <;> rw [h] <;> simp
  have a1 := abs_sub_comm fx tx
  have a2 := abs_sub_comm fy ty
  have z1 := abs_cases (tx - fx)
  have z2 := abs_cases (ty - fy)
  unfold Attacks
  rcases hkind with h | h | h | h
  · simp only [h]
    rw [(iff_of_spec (validKnightMove_spec b fx fy tx ty _ hsq)).2]
    simp only [h, a1, a2, hto, true_and]
  · simp only [h]
    rw [(iff_of_spec (validBishopMove_spec b fx fy tx ty _ hsq hp)).2]
    simp only [h, a1, a2, hto, true_and]
    constructor
    · rintro ⟨h1, h2, h3, h4⟩
      exact ⟨⟨h1, by omega, h4⟩, h3⟩
    · rintro ⟨⟨h1, h2, h3⟩, h4⟩
      exact ⟨h1, by omega, h4, h3⟩
  · simp only [h]
    rw [(iff_of_spec (validRookMove_spec b fx fy tx ty _ hsq hp)).2]
    simp only [h, hto, true_and]
    constructor
    · rintro ⟨h1, h2, h3⟩
      exact ⟨⟨by omega, by omega, h3⟩, h2⟩
    · rintro ⟨⟨h1, h2, h3⟩, h4⟩
      exact ⟨by omega, h4, h3⟩
  · simp only [h]
    rw [(iff_of_spec (validQueenMove_spec b fx fy tx ty _ hsq hp)).2]
    simp only [h, a1, a2, hto, true_and]
    constructor
    · rintro (⟨h1, h2, h3⟩ | ⟨h1, h2, h3, h4⟩)
      · exact ⟨⟨by omega, by omega, h3⟩, h2⟩
      · exact ⟨⟨by omega, by omega, h4⟩, h3⟩
    · rintro ⟨⟨h1, h2, h3⟩, h4⟩
      by_cases hr : tx = fx ∨ ty = fy
      · left
        exact ⟨by omega, h4, h3⟩
      · right
        exact ⟨by omega, by omega, h4, h3⟩

/-- The queen of `queenSample` attacks the pawn on `(3,6)` and may capture
it. -/
theorem legality_agrees_with_attacks_witness :
    ∃ m, markAttacks queenSample 3 3 emptyAttackMap = Run.ok m ∧
      m.read 3 6 = Run.ok true := by
  obtain ⟨m, hm, hiff⟩ := legality_agrees_with_attacks queenSample 3 3 3 6
    ⟨Piece.Queen, Color.White⟩ (by decide) (by decide) (by decide)
  exact ⟨m, hm, (hiff.mp (by decide)).1⟩

/-- C20. When the only king of side `s` stands on the origin and `isValidMove`
accepts its move, the board after the move has no king of the opposing side on
any square surrounding the destination. -/
theorem kings_not_adjacent_after_king_move (b : Board) (s : Color) (fx fy tx ty : Int)
    (hking : b.read fx fy = Run.ok ⟨Piece.King, s⟩)
    (honly : ∀ x y, IsKingOf b s x y → x = fx ∧ y = fy)
    (hvalid : isValidMove b fx fy tx ty = Run.ok true) :
    ∃ next, movePiece b fx fy tx ty = Run.ok next ∧
      ∀ qx qy, IsKingOf next s.other qx qy →
        ¬ (|qx - tx| ≤ 1 ∧ |qy - ty| ≤ 1 ∧ ¬ (qx = tx ∧ qy = ty)) := by
  have heq : isValidMove b fx fy tx ty = validKingMove b fx fy tx ty :=
    isValidMove_eq b fx fy tx ty _ hking
  rw [heq] at hvalid
  obtain ⟨ht, -, -, -, next, hmove, hcheck⟩ :=
    (iff_of_spec (validKingMove_spec b fx fy tx ty _ hking rfl)).2.mp hvalid
  simp only at hcheck
  refine ⟨next, hmove, ?_⟩
  rintro qx qy ⟨sq, hsq, hk, hc⟩ ⟨h1, h2, h3⟩
  have hfind := findKing_after_move b s hking honly hmove ht
  obtain ⟨m, hm, hspec⟩ := buildAttackMap_spec next s.other
  have hmarked : m.read tx ty = Run.ok true := by
    rw [hspec tx ty ht]
    refine ⟨qx, qy, sq, hsq, by rw [hk]; simp, hc, ?_⟩
    unfold Attacks
    rw [hk]
    have a1 := abs_sub_comm qx tx
    have a2 := abs_sub_comm qy ty
    exact ⟨by omega, by omega, fun h => h3 ⟨h.1.symm, h.2.symm⟩⟩
  simp only [isKingInCheck, hfind, Run.ok_bind, enemy_eq, hm, hmarked] at hcheck
  cases hcheck

/-- On `facingKings` the white king may not approach the black king on
`(2,3)` by stepping to `(1,3)`; it may step to `(0,2)`, after which no black
king stands next to it. -/
theorem kings_not_adjacent_after_king_move_witness :
    isValidMove facingKings 0 3 1 3 = Run.ok false ∧
      ∃ next, movePiece facingKings 0 3 0 2 = Run.ok next ∧
        ∀ qx qy, IsKingOf next Color.Black qx qy →
          ¬ (|qx - 0| ≤ 1 ∧ |qy - 2| ≤ 1 ∧ ¬ (qx = 0 ∧ qy = 2)) :=
  ⟨by decide,
    kings_not_adjacent_after_king_move facingKings Color.White 0 3 0 2 (by decide)
      (onlyKing_of_cells facingKings Color.White 0 3 (by decide)) (by decide)⟩

end Chess
